import Mathlib

/-!
# flickr-api-proxy: the cache codec, the cache key, the throttle and the handler

A shallow embedding of `main.go`.  Go strings are byte sequences, `int64`
values are integers with the range made explicit where it matters, and the
functions of the Go standard library that the code calls (`fmt.Sprintf`,
`strconv.ParseInt`, `url.Values.Encode`, `sha256`, `base32`) are modelled by
their documented behaviour.
-/

namespace FlickrProxy

/-! ## Byte strings -/

/-- A Go `byte`. -/
abbrev Byte := Fin 256

/-- A Go `string`: an immutable sequence of bytes. -/
abbrev GoString := List Byte

/-- The bytes of an ASCII literal. -/
def str (s : String) : GoString := s.toList.map (fun c => Fin.ofNat c.toNat)

/-! ## `fmt.Sprintf("%03d", n)` for a non-negative `n` -/

/-- The ASCII digit of `d % 10`. -/
def digitByte (d : Nat) : Byte := Fin.ofNat (48 + d % 10)

/-- Decimal digits of `n`, most significant first, prepended to `acc`. -/
def decDigitsAux : Nat → Nat → GoString → GoString
  | 0, _, acc => acc
  | fuel + 1, n, acc =>
    if n < 10 then digitByte n :: acc
    else decDigitsAux fuel (n / 10) (digitByte n :: acc)

/-- The verb `%d` on a non-negative integer: its decimal digits. -/
def decDigits (n : Nat) : GoString := decDigitsAux (n + 1) n []

/-- The verb `%03d` on a non-negative integer: the decimal digits, padded on
the left with `'0'` up to width 3 (wider numbers are not truncated). -/
def fmtD03 (n : Nat) : GoString :=
  List.replicate (3 - (decDigits n).length) (48 : Byte) ++ decDigits n

/-! ## `strconv.ParseInt(s, 10, 64)` -/

/-- The two failures of `strconv`: `ErrSyntax` and `ErrRange`. -/
inductive NumError where
  | errSyntax
  | errRange
  deriving DecidableEq, Repr

/-- The digit loop of `strconv.ParseUint(s, 10, 64)` with `n` accumulated so
far: a byte that is not a decimal digit is a syntax error (an explicit base 10
admits neither a base marker nor underscores), a value beyond `uint64` is a
range error, reported at the byte where it is detected. -/
def parseUintLoop : GoString → Nat → Except NumError Nat
  | [], n => .ok n
  | c :: cs, n =>
    if 48 ≤ c.val ∧ c.val ≤ 57 then
      if (2 ^ 64 - 1) / 10 + 1 ≤ n then .error .errRange
      else if 2 ^ 64 - 1 < n * 10 + (c.val - 48) then .error .errRange
      else parseUintLoop cs (n * 10 + (c.val - 48))
    else .error .errSyntax

/-- The call `strconv.ParseUint(s, 10, 64)`. -/
def ParseUint (s : GoString) : Except NumError Nat :=
  match s with
  | [] => .error .errSyntax
  | _ :: _ => parseUintLoop s 0

/-- The call `strconv.ParseInt(s, 10, 64)`: an optional sign, then
`ParseUint` on the rest; the value must fit in an `int64`. -/
def ParseInt (s : GoString) : Except NumError Int :=
  match s with
  | [] => .error .errSyntax
  | c :: cs =>
    let neg : Bool := c = 45
    let rest : GoString := if c = 43 ∨ c = 45 then cs else s
    match ParseUint rest with
    | .error .errSyntax => .error .errSyntax
    | .error .errRange => .error .errRange
    | .ok un =>
      if !neg && 2 ^ 63 ≤ un then .error .errRange
      else if neg && 2 ^ 63 < un then .error .errRange
      else .ok (if neg then -(un : Int) else (un : Int))

/-! ## The cache codec -/

/-- Outcome of `parseCached`: its two strings with a nil error, a non-nil
error, or a run-time panic (slice bounds out of range). -/
inductive Parsed where
  | ok (ct body : GoString)
  | err (e : NumError)
  | panic
  deriving DecidableEq, Repr

/-- The function `serializeCached`: `fmt.Sprintf("%03d%s%s", len(ct), ct, body)`. -/
def serializeCached (ct body : GoString) : GoString :=
  fmtD03 ct.length ++ ct ++ body

/-- The function `parseCached`.  `resp[:3]` panics on fewer than 3 bytes;
`resp[3 : 3+ctLen]` panics unless `3 ≤ 3+ctLen ≤ len(resp)`. -/
def parseCached (resp : GoString) : Parsed :=
  if resp.length < 3 then .panic
  else
    match ParseInt (resp.take 3) with
    | .error e => .err e
    | .ok ctLen =>
      if 3 + ctLen < 3 ∨ (resp.length : Int) < 3 + ctLen then .panic
      else .ok ((resp.take (3 + ctLen).toNat).drop 3) (resp.drop (3 + ctLen).toNat)


/-! ## `crypto/sha256` (FIPS 180-4) -/

namespace Sha256

/-- The round constants `K`. -/
def K : List Nat := [
  0x428a2f98, 0x71374491, 0xb5c0fbcf, 0xe9b5dba5, 0x3956c25b, 0x59f111f1, 0x923f82a4, 0xab1c5ed5,
  0xd807aa98, 0x12835b01, 0x243185be, 0x550c7dc3, 0x72be5d74, 0x80deb1fe, 0x9bdc06a7, 0xc19bf174,
  0xe49b69c1, 0xefbe4786, 0x0fc19dc6, 0x240ca1cc, 0x2de92c6f, 0x4a7484aa, 0x5cb0a9dc, 0x76f988da,
  0x983e5152, 0xa831c66d, 0xb00327c8, 0xbf597fc7, 0xc6e00bf3, 0xd5a79147, 0x06ca6351, 0x14292967,
  0x27b70a85, 0x2e1b2138, 0x4d2c6dfc, 0x53380d13, 0x650a7354, 0x766a0abb, 0x81c2c92e, 0x92722c85,
  0xa2bfe8a1, 0xa81a664b, 0xc24b8b70, 0xc76c51a3, 0xd192e819, 0xd6990624, 0xf40e3585, 0x106aa070,
  0x19a4c116, 0x1e376c08, 0x2748774c, 0x34b0bcb5, 0x391c0cb3, 0x4ed8aa4a, 0x5b9cca4f, 0x682e6ff3,
  0x748f82ee, 0x78a5636f, 0x84c87814, 0x8cc70208, 0x90befffa, 0xa4506ceb, 0xbef9a3f7, 0xc67178f2]

/-- The initial hash value. -/
def H0 : List Nat := [
  0x6a09e667, 0xbb67ae85, 0x3c6ef372, 0xa54ff53a, 0x510e527f, 0x9b05688c, 0x1f83d9ab, 0x5be0cd19]

/-- Addition of 32-bit words. -/
def add32 (a b : Nat) : Nat := (a + b) % 2 ^ 32

/-- Rotation of a 32-bit word to the right by `n` bits. -/
def rotr (x n : Nat) : Nat := (x >>> n) ||| ((x <<< (32 - n)) % 2 ^ 32)

/-- The function `Ch`. -/
def ch (e f g : Nat) : Nat := (e &&& f) ^^^ ((2 ^ 32 - 1 - e) &&& g)

/-- The function `Maj`. -/
def maj (a b c : Nat) : Nat := (a &&& b) ^^^ (a &&& c) ^^^ (b &&& c)

/-- The function `Σ0`. -/
def bigSigma0 (a : Nat) : Nat := rotr a 2 ^^^ rotr a 13 ^^^ rotr a 22

/-- The function `Σ1`. -/
def bigSigma1 (e : Nat) : Nat := rotr e 6 ^^^ rotr e 11 ^^^ rotr e 25

/-- The function `σ0`. -/
def smallSigma0 (x : Nat) : Nat := rotr x 7 ^^^ rotr x 18 ^^^ (x >>> 3)

/-- The function `σ1`. -/
def smallSigma1 (x : Nat) : Nat := rotr x 17 ^^^ rotr x 19 ^^^ (x >>> 10)

/-- The message with its padding: a `0x80` byte, zero bytes up to 56 modulo
64, and the length in bits as 8 big-endian bytes. -/
def pad (msg : GoString) : List Nat :=
  let n := msg.length
  msg.map Fin.val ++ [0x80] ++ List.replicate ((119 - n % 64) % 64) 0 ++
    (List.range 8).map (fun i => (n * 8) / 2 ^ (8 * (7 - i)) % 256)

/-- Big-endian 32-bit words of a byte sequence. -/
def beWords : List Nat → List Nat
  | a :: b :: c :: d :: rest => (a * 2 ^ 24 + b * 2 ^ 16 + c * 2 ^ 8 + d) :: beWords rest
  | _ => []

/-- The first `n` blocks of 64 bytes. -/
def blocks : Nat → List Nat → List (List Nat)
  | 0, _ => []
  | n + 1, bytes => bytes.take 64 :: blocks n (bytes.drop 64)

/-- The message schedule of one block: 64 words. -/
def schedule (block : List Nat) : List Nat :=
  ((List.range 48).foldl (fun ws _ =>
      add32 (add32 (smallSigma1 (ws.getD 1 0)) (ws.getD 6 0))
        (add32 (smallSigma0 (ws.getD 14 0)) (ws.getD 15 0)) :: ws)
    (beWords block).reverse).reverse

/-- One round on the working variables `a … h` with `kw = K[i] + W[i]`. -/
def round (v : List Nat) (kw : Nat) : List Nat :=
  match v with
  | [a, b, c, d, e, f, g, h] =>
    let t1 := add32 (add32 (add32 h (bigSigma1 e)) (ch e f g)) kw
    let t2 := add32 (bigSigma0 a) (maj a b c)
    [add32 t1 t2, a, b, c, add32 d t1, e, f, g]
  | _ => v

/-- The compression function: 64 rounds, then the feed-forward addition. -/
def compress (h : List Nat) (block : List Nat) : List Nat :=
  List.zipWith add32 h
    ((List.zipWith add32 K (schedule block)).foldl round h)

/-- Big-endian bytes of a 32-bit word. -/
def wordBytes (w : Nat) : GoString :=
  [Fin.ofNat (w / 2 ^ 24), Fin.ofNat (w / 2 ^ 16), Fin.ofNat (w / 2 ^ 8), Fin.ofNat w]

/-- The 32-byte digest `sha256.Sum256(msg)`, which is what writing `msg` to a
fresh `sha256.New()` and calling `Sum(nil)` returns. -/
def sum (msg : GoString) : GoString :=
  let bytes := pad msg
  (((blocks (bytes.length / 64) bytes).foldl compress H0).map wordBytes).flatten

end Sha256

/-! ## `encoding/base32`: `StdEncoding.EncodeToString` (RFC 4648, with padding) -/

/-- The alphabet of `base32.StdEncoding`. -/
def encodeStd : GoString := str "ABCDEFGHIJKLMNOPQRSTUVWXYZ234567"

/-- The character of the 5-bit value `x & 0x1F`. -/
def b32Char (x : Nat) : Byte := encodeStd.getD (x % 32) 0

/-- The 8 characters of a 40-bit group `b0 … b4`. -/
def b32Quantum (b0 b1 b2 b3 b4 : Byte) : GoString :=
  let hi : Nat := b0.val * 2 ^ 24 + b1.val * 2 ^ 16 + b2.val * 2 ^ 8 + b3.val
  let lo : Nat := (hi * 2 ^ 8 + b4.val) % 2 ^ 32
  [b32Char (hi / 2 ^ 27), b32Char (hi / 2 ^ 22), b32Char (hi / 2 ^ 17), b32Char (hi / 2 ^ 12),
   b32Char (hi / 2 ^ 7), b32Char (hi / 2 ^ 2), b32Char (lo / 2 ^ 5), b32Char lo]

/-- The padding character `'='`. -/
def b32Pad : Byte := 61

/-- The method `base32.StdEncoding.EncodeToString`: full groups of 5 bytes give 8
characters each; a final group of 1, 2, 3 or 4 bytes gives 2, 4, 5 or 7
characters (the missing bytes read as zero) and is padded to 8 with `'='`. -/
def base32Encode : GoString → GoString
  | [] => []
  | [b0] => (b32Quantum b0 0 0 0 0).take 2 ++ List.replicate 6 b32Pad
  | [b0, b1] => (b32Quantum b0 b1 0 0 0).take 4 ++ List.replicate 4 b32Pad
  | [b0, b1, b2] => (b32Quantum b0 b1 b2 0 0).take 5 ++ List.replicate 3 b32Pad
  | [b0, b1, b2, b3] => (b32Quantum b0 b1 b2 b3 0).take 7 ++ List.replicate 1 b32Pad
  | b0 :: b1 :: b2 :: b3 :: b4 :: rest => b32Quantum b0 b1 b2 b3 b4 ++ base32Encode rest

/-! ## `net/url`: `QueryEscape`, `Values` and `Values.Encode` -/

/-- The hexadecimal digits used by `url.QueryEscape`. -/
def upperhex : GoString := str "0123456789ABCDEF"

/-- Whether `c` is escaped in a query component: every byte but the ASCII
letters and digits and `-`, `_`, `.`, `~`. -/
def shouldEscape (c : Byte) : Bool :=
  !((97 ≤ c.val && c.val ≤ 122) || (65 ≤ c.val && c.val ≤ 90) || (48 ≤ c.val && c.val ≤ 57)
    || c = 45 || c = 95 || c = 46 || c = 126)

/-- What `url.QueryEscape` writes for one byte: `+` for a space, `%XX` for an
escaped byte, the byte itself otherwise. -/
def escapeByte (c : Byte) : GoString :=
  if c = 32 then [43]
  else if shouldEscape c then [37, upperhex.getD (c.val / 16) 0, upperhex.getD (c.val % 16) 0]
  else [c]

/-- The function `url.QueryEscape`. -/
def QueryEscape : GoString → GoString
  | [] => []
  | c :: cs => escapeByte c ++ QueryEscape cs

/-- The type `url.Values`, a `map[string][]string`: the entries of the map, with
pairwise distinct keys. -/
abbrev Values := List (GoString × List GoString)

/-- The map index `v[key]`: the values stored under `key`, none when absent. -/
def Values.index (v : Values) (key : GoString) : List GoString :=
  match v with
  | [] => []
  | (k, xs) :: rest => if k = key then xs else Values.index rest key

/-- The method `Values.Add`: `v[key] = append(v[key], value)`. -/
def Values.Add (v : Values) (key value : GoString) : Values :=
  match v with
  | [] => [(key, [value])]
  | (k, xs) :: rest =>
    if k = key then (k, xs ++ [value]) :: rest else (k, xs) :: Values.Add rest key value

/-- The method `Values.Set`: `v[key] = []string{value}`. -/
def Values.Set (v : Values) (key value : GoString) : Values :=
  match v with
  | [] => [(key, [value])]
  | (k, xs) :: rest =>
    if k = key then (k, [value]) :: rest else (k, xs) :: Values.Set rest key value

/-- The method `r.URL.Query()` on the name/value pairs of the raw query, already
unescaped and in request order: each pair is added to the map in turn. -/
def parseQuery (pairs : List (GoString × GoString)) : Values :=
  pairs.foldl (fun v p => Values.Add v p.1 p.2) []

/-- Go's `<=` on strings: lexicographic on bytes. -/
def strLe : GoString → GoString → Bool
  | [], _ => true
  | _ :: _, [] => false
  | a :: as, b :: bs => a.val < b.val || (a = b && strLe as bs)

/-- The order `slices.Sort` sorts strings by. -/
def StrLE (a b : GoString) : Prop := strLe a b = true

instance : DecidableRel StrLE := fun a b => inferInstanceAs (Decidable (strLe a b = true))

/-- The keys of the map, sorted as by `slices.Sort(keys)`. -/
def Values.sortedKeys (v : Values) : List GoString :=
  (v.map Prod.fst).insertionSort StrLE

/-- One pass through the inner loop body of `Values.Encode`: an `&` unless the
buffer is empty, the escaped key, `=`, the escaped value. -/
def encodeStep (keyEscaped : GoString) (buf : GoString) (value : GoString) : GoString :=
  (if buf.length > 0 then buf ++ [38] else buf) ++ keyEscaped ++ [61] ++ QueryEscape value

/-- The method `Values.Encode`: the "URL encoded" form `bar=baz&foo=quux`
sorted by key. -/
def Values.Encode (v : Values) : GoString :=
  v.sortedKeys.foldl (fun buf k => (v.index k).foldl (encodeStep (QueryEscape k)) buf) []

/-! ## The cache key -/

/-- The bytes written to the hasher by `cacheKey`. -/
def hashInput (apiKey path : GoString) (query : Values) : GoString :=
  apiKey ++ path ++ query.Encode

/-- The fixed text in front of every cache key. -/
def keyNamespace : GoString := str "flickr-api-proxy:cache:"

/-- The cache key of a SHA-256 digest. -/
def keyOfSum (sum : GoString) : GoString := keyNamespace ++ base32Encode sum

/-- The function `cacheKey`. -/
def cacheKey (apiKey path : GoString) (query : Values) : GoString :=
  keyOfSum (Sha256.sum (hashInput apiKey path query))

/-! ## Time and the throttle -/

/-! A `time.Time` is a clock reading in nanoseconds, an integer; the zero
`Time` is `0`.  A `time.Duration` is an `int64` count of nanoseconds. -/

/-- The constant `time.Second`. -/
def second : Int := 1000000000

/-- The constant `time.Hour`. -/
def hour : Int := 3600 * second

/-- The constant `cacheExpiry`: `24 * time.Hour * 7`. -/
def cacheExpiry : Int := 24 * hour * 7

/-- The largest `Duration`. -/
def maxDuration : Int := 2 ^ 63 - 1

/-- The smallest `Duration`. -/
def minDuration : Int := -(2 ^ 63)

/-- The method `t.Sub(u)`: the difference `t - u`, saturated to the range of a
`Duration`. -/
def timeSub (t u : Int) : Int :=
  if maxDuration < t - u then maxDuration
  else if t - u < minDuration then minDuration
  else t - u

/-- The critical section of `handler` between `mu.Lock()` and `mu.Unlock()`:
`since` is the clock reading `time.Since(lastReq)` compares with `lastReq`,
`now` the reading `time.Now()` returns for the assignment.  Returns whether
the attempt is admitted and the new value of `lastReq`. -/
def tryAdmit (lastReq since now : Int) : Bool × Int :=
  if timeSub since lastReq < second then (false, lastReq) else (true, now)

/-- The two clock readings of one admission attempt. -/
structure Attempt where
  since : Int
  now : Int
  deriving DecidableEq, Repr

/-- A sequence of attempts run one after another from `lastReq`: the final
`lastReq` and the attempts that were admitted, in order. -/
def runAttempts : Int → List Attempt → Int × List Attempt
  | lastReq, [] => (lastReq, [])
  | lastReq, a :: rest =>
    let r := tryAdmit lastReq a.since a.now
    let out := runAttempts r.2 rest
    (out.1, if r.1 then a :: out.2 else out.2)

/-! ## The handler -/

/-- What `handler` reads of the inbound request. -/
structure Request where
  /-- The header `X-API-Key`: `r.Header.Get("X-API-Key")`. -/
  apiKey : GoString
  /-- The path `r.URL.Path`. -/
  path : GoString
  /-- The name/value pairs of `r.URL.RawQuery`, unescaped, in request order. -/
  query : List (GoString × GoString)

/-- What becomes of the upstream request. -/
inductive Upstream where
  /-- The call `http.NewRequestWithContext` returns an error. -/
  | invalid
  /-- The call `client.Do` returns the error `err`, `msg` being `err.Error()`. -/
  | failed (msg : GoString)
  /-- The call `client.Do` returns a response; `body` is what `io.ReadAll` reads,
  `none` when it fails. -/
  | response (statusCode : Int) (status : GoString) (contentType : GoString)
      (body : Option GoString)

/-- What the world outside the handler does during one request. -/
structure World where
  /-- The call `rdb.Get` fails with an error other than `redis.Nil`. -/
  getFails : Bool
  /-- The clock reading of `time.Since(lastReq)`. -/
  since : Int
  /-- The clock reading of `time.Now()`. -/
  now : Int
  upstream : Upstream
  /-- The call `rdb.Set` returns an error. -/
  setFails : Bool

/-- A stored value and the expiry it was set with. -/
structure Entry where
  value : GoString
  expiry : Int
  deriving DecidableEq, Repr

/-- The key-value store behind `rdb`. -/
abbrev Store := GoString → Option Entry

/-- The store after a successful `SET key value EX expiry`. -/
def Store.set (s : Store) (key : GoString) (e : Entry) : Store :=
  fun k => if k = key then some e else s k

/-- The package-level state: the store behind `rdb` and `lastReq`. -/
structure State where
  rdb : Store
  lastReq : Int

/-- What the handler does to its `http.ResponseWriter`. -/
inductive Reply where
  /-- The calls `w.Header().Set("Content-Type", ct)` and `w.Write(body)`: status 200. -/
  | write (contentType body : GoString)
  /-- The call `http.Error(w, msg, code)` with a code `WriteHeader` accepts: a
  plain-text reply with the status `code` whose body is the line `msg` (written
  with a newline after it). -/
  | error (msg : GoString) (code : Int)
  /-- The handler panics before it replies. -/
  | panic
  deriving DecidableEq, Repr

/-- The status code of a reply, when there is one. -/
def Reply.status : Reply → Option Int
  | .write _ _ => some 200
  | .error _ code => some code
  | .panic => none

/-- The function `http.Error(w, msg, code)`: `w.WriteHeader(code)` panics on a
code below 100 or above 999, before anything is sent. -/
def httpError (msg : GoString) (code : Int) : Reply :=
  if code < 100 ∨ 999 < code then .panic else .error msg code

/-- The function `bodyAllowedForStatus` of `net/http`: a reply with a 1xx, 204
or 304 status carries no body, whatever the handler writes. -/
def bodyAllowedForStatus (status : Int) : Bool :=
  !((100 ≤ status && status ≤ 199) || status == 204 || status == 304)

/-- The body that reaches the client, when a reply is sent: what the handler
writes, when the status allows a body. -/
def Reply.body : Reply → Option GoString
  | .write _ body => some body
  | .error msg code => if bodyAllowedForStatus code then some (msg ++ [10]) else some []
  | .panic => none

/-- A call that leaves the process. -/
inductive Effect where
  | storeGet (key : GoString)
  | upstreamGet (url : GoString)
  | storeSet (key value : GoString) (expiry : Int)
  deriving DecidableEq, Repr

/-- Whether the effect is an upstream request. -/
def Effect.isUpstream : Effect → Bool
  | .upstreamGet _ => true
  | _ => false

/-- Whether the effect is a store write. -/
def Effect.isWrite : Effect → Bool
  | .storeSet _ _ _ => true
  | _ => false

/-- The state after a request, the reply and the calls made, in order. -/
structure Outcome where
  state : State
  reply : Reply
  effects : List Effect

/-- The string `rdb.Get(ctx, key).Result()` returns when it does not fail:
the stored value, or `""` with `redis.Nil` when the key is absent. -/
def Store.get (s : Store) (key : GoString) : GoString :=
  match s key with
  | some e => e.value
  | none => []

/-- The URL of the upstream request. -/
def upstreamURL (r : Request) : GoString :=
  str "https://www.flickr.com" ++ r.path ++ str "?" ++
    (Values.Set (parseQuery r.query) (str "api_key") r.apiKey).Encode

/-- The function `handler`, from the package state, the request and what the
world does to the state afterwards, the reply and the calls made. -/
def handler (s : State) (r : Request) (w : World) : Outcome :=
  if r.apiKey = [] then ⟨s, httpError (str "missing X-API-Key") 401, []⟩
  else
    let key := cacheKey r.apiKey r.path (parseQuery r.query)
    if w.getFails then ⟨s, httpError (str "cache lookup failed") 500, [.storeGet key]⟩
    else
      let cached := s.rdb.get key
      if cached ≠ [] then
        match parseCached cached with
        | .err _ => ⟨s, httpError (str "failed to parse cached response") 500, [.storeGet key]⟩
        | .panic => ⟨s, .panic, [.storeGet key]⟩
        | .ok ct body => ⟨s, .write ct body, [.storeGet key]⟩
      else
        let adm := tryAdmit s.lastReq w.since w.now
        if adm.1 = false then ⟨s, httpError (str "too fast") 429, [.storeGet key]⟩
        else
          let s1 : State := ⟨s.rdb, adm.2⟩
          let url := upstreamURL r
          match w.upstream with
          | .invalid => ⟨s1, httpError (str "failed to create request") 500, [.storeGet key]⟩
          | .failed msg => ⟨s1, httpError msg 500, [.storeGet key, .upstreamGet url]⟩
          | .response statusCode status ct body =>
            if statusCode ≠ 200 then
              ⟨s1, httpError status statusCode, [.storeGet key, .upstreamGet url]⟩
            else
              match body with
              | none =>
                ⟨s1, httpError (str "failed to read response body") 500,
                  [.storeGet key, .upstreamGet url]⟩
              | some b =>
                let value := serializeCached ct b
                let calls := [.storeGet key, .upstreamGet url, .storeSet key value cacheExpiry]
                if w.setFails then ⟨s1, httpError (str "failed to cache response") 500, calls⟩
                else ⟨⟨s1.rdb.set key ⟨value, cacheExpiry⟩, s1.lastReq⟩, .write ct b, calls⟩

/-! ## Notions used to state and prove the properties of the cache key -/

/-- The values given for `name` in the request, in request order. -/
def valuesOf (name : GoString) : List (GoString × GoString) → List GoString
  | [] => []
  | p :: ps => if p.1 = name then p.2 :: valuesOf name ps else valuesOf name ps

/-- The name/value pairs `Values.Encode` writes when it visits `keys` in turn. -/
def Values.pairs (v : Values) : List GoString → List (GoString × GoString)
  | [] => []
  | k :: ks => (v.index k).map (fun x => (k, x)) ++ Values.pairs v ks

/-- What `Values.Encode` writes for one pair after the `&`: `name=value`, escaped. -/
def encodeSegment (p : GoString × GoString) : GoString :=
  QueryEscape p.1 ++ 61 :: QueryEscape p.2

/-- The segments of `ps`, each with an `&` in front. -/
def ampSegments : List (GoString × GoString) → GoString
  | [] => []
  | p :: ps => 38 :: (encodeSegment p ++ ampSegments ps)

/-- The inner loop body of `Values.Encode` run over a list of pairs. -/
def encodePairs (buf : GoString) (ps : List (GoString × GoString)) : GoString :=
  ps.foldl (fun buf p => encodeStep (QueryEscape p.1) buf p.2) buf

/-- The 5-bit value of a character of the alphabet (0 for any other byte). -/
def b32Val (c : Byte) : Nat := encodeStd.indexOf c % 32

/-- The 40-bit number eight characters stand for. -/
def b32Num (c0 c1 c2 c3 c4 c5 c6 c7 : Byte) : Nat :=
  b32Val c0 * 2 ^ 35 + b32Val c1 * 2 ^ 30 + b32Val c2 * 2 ^ 25 + b32Val c3 * 2 ^ 20 +
    b32Val c4 * 2 ^ 15 + b32Val c5 * 2 ^ 10 + b32Val c6 * 2 ^ 5 + b32Val c7

/-- The 5 bytes of a 40-bit number, most significant first. -/
def b32Bytes (n : Nat) : GoString :=
  [Fin.ofNat (n / 2 ^ 32), Fin.ofNat (n / 2 ^ 24), Fin.ofNat (n / 2 ^ 16), Fin.ofNat (n / 2 ^ 8),
    Fin.ofNat n]

/-- Reads back what `base32Encode` writes: groups of 8 characters, the
padding telling how many bytes the last group holds. -/
def base32Decode : GoString → GoString
  | c0 :: c1 :: c2 :: c3 :: c4 :: c5 :: c6 :: c7 :: rest =>
    if c2 = b32Pad then (b32Bytes (b32Num c0 c1 c2 c3 c4 c5 c6 c7)).take 1
    else if c4 = b32Pad then (b32Bytes (b32Num c0 c1 c2 c3 c4 c5 c6 c7)).take 2
    else if c5 = b32Pad then (b32Bytes (b32Num c0 c1 c2 c3 c4 c5 c6 c7)).take 3
    else if c7 = b32Pad then (b32Bytes (b32Num c0 c1 c2 c3 c4 c5 c6 c7)).take 4
    else b32Bytes (b32Num c0 c1 c2 c3 c4 c5 c6 c7) ++ base32Decode rest
  | _ => []

/-! ## A concrete run, used to evaluate the handler -/

/-- The request `GET /p` of the credential `k`. -/
def demoRequest : Request := ⟨str "k", str "/p", []⟩

/-- The empty store and the zero `lastReq`. -/
def demoState : State := ⟨fun _ => none, 0⟩

/-- A world where the store works and the clock reads `t` throughout. -/
def demoWorld (t : Int) (upstream : Upstream) : World := ⟨false, t, t, upstream, false⟩

/-- A content type of 1000 bytes. -/
def longContentType : GoString := List.replicate 1000 97

/-- The state whose store holds `value` under the cache key of `demoRequest`. -/
def storedState (value : GoString) : State :=
  ⟨fun k =>
    if k = cacheKey demoRequest.apiKey demoRequest.path (parseQuery demoRequest.query) then
      some ⟨value, cacheExpiry⟩
    else none, 0⟩

/-! # Theorems -/

/-! ## The cache codec -/

theorem decDigitsAux_small (fuel n : Nat) (acc : GoString) (hf : 0 < fuel) (h : n < 10) :
    decDigitsAux fuel n acc = digitByte n :: acc := by
  cases fuel with
  | zero => omega
  | succ f => simp [decDigitsAux, h]

theorem decDigitsAux_big (fuel n : Nat) (acc : GoString) (hf : 0 < fuel) (h : 10 ≤ n) :
    decDigitsAux fuel n acc = decDigitsAux (fuel - 1) (n / 10) (digitByte n :: acc) := by
  cases fuel with
  | zero => omega
  | succ f => simp [decDigitsAux, Nat.not_lt.mpr h]

/-- A length of at most 999 is printed by `%03d` as exactly three digits. -/
theorem fmtD03_of_le (n : Nat) (h : n ≤ 999) :
    fmtD03 n = [digitByte (n / 100), digitByte (n / 10), digitByte n] := by
  unfold fmtD03 decDigits
  by_cases h1 : n < 10
  · have e1 : n / 100 = 0 := by omega
    have e2 : n / 10 = 0 := by omega
    rw [decDigitsAux_small _ _ _ (by omega) h1, e1, e2]
    rfl
  · by_cases h2 : n < 100
    · have e1 : n / 100 = 0 := by omega
      rw [decDigitsAux_big _ _ _ (by omega) (by omega),
        decDigitsAux_small _ _ _ (by omega) (by omega), e1]
      rfl
    · have e : n / 10 / 10 = n / 100 := by omega
      rw [decDigitsAux_big _ _ _ (by omega) (by omega),
        decDigitsAux_big _ _ _ (by omega) (by omega),
        decDigitsAux_small _ _ _ (by omega) (by omega), e]
      rfl

theorem digitByte_val (d : Nat) : (digitByte d).val = 48 + d % 10 := by
  unfold digitByte
  show (48 + d % 10) % 256 = 48 + d % 10
  omega

theorem digitByte_ne_sign (d : Nat) : digitByte d ≠ 43 ∧ digitByte d ≠ 45 := by
  constructor <;> intro hc <;> have := congrArg Fin.val hc <;> rw [digitByte_val] at this
  · have e : ((43 : Byte) : Nat) = 43 := rfl
    omega
  · have e : ((45 : Byte) : Nat) = 45 := rfl
    omega

theorem parseUintLoop_digit (d n : Nat) (cs : GoString) (hn : n < 1000) :
    parseUintLoop (digitByte d :: cs) n = parseUintLoop cs (n * 10 + d % 10) := by
  have hv := digitByte_val d
  have c1 : 48 ≤ (digitByte d).val ∧ (digitByte d).val ≤ 57 := by omega
  have c2 : ¬ (2 ^ 64 - 1) / 10 + 1 ≤ n := by norm_num; omega
  have c3 : ¬ 2 ^ 64 - 1 < n * 10 + ((digitByte d).val - 48) := by norm_num; omega
  have e : (digitByte d).val - 48 = d % 10 := by omega
  rw [parseUintLoop, if_pos c1, if_neg c2, if_neg c3, e]

/-- The three digits `%03d` prints for a length of at most 999 parse back to it. -/
theorem ParseInt_fmtD03 (n : Nat) (h : n ≤ 999) : ParseInt (fmtD03 n) = .ok (n : Int) := by
  rw [fmtD03_of_le n h]
  have h1 := (digitByte_ne_sign (n / 100)).1
  have h2 := (digitByte_ne_sign (n / 100)).2
  have hu : ParseUint [digitByte (n / 100), digitByte (n / 10), digitByte n] = .ok n := by
    rw [ParseUint, parseUintLoop_digit _ _ _ (by omega), parseUintLoop_digit _ _ _ (by omega),
      parseUintLoop_digit _ _ _ (by omega), parseUintLoop]
    congr 1
    omega
  simp [ParseInt, h1, h2, hu]
  omega

theorem fmtD03_length (n : Nat) (h : n ≤ 999) : (fmtD03 n).length = 3 := by
  rw [fmtD03_of_le n h]; rfl

/-- What `serializeCached` writes for a content type of at most 999 bytes is
read back by `parseCached`. -/
theorem parseCached_serializeCached (ct body : GoString) (h : ct.length ≤ 999) :
    parseCached (serializeCached ct body) = Parsed.ok ct body := by
  have hl := fmtD03_length ct.length h
  have ht : (serializeCached ct body).take 3 = fmtD03 ct.length := by
    simp [serializeCached, List.take_append_eq_append_take, hl]
  have hlen : (serializeCached ct body).length = 3 + ct.length + body.length := by
    simp [serializeCached, hl]
    omega
  have c1 : ¬ (serializeCached ct body).length < 3 := by omega
  have c2 : ¬ ((3 : Int) + (ct.length : Int) < 3 ∨
      ((serializeCached ct body).length : Int) < 3 + (ct.length : Int)) := by
    rw [hlen]; push_cast; omega
  have e : ((3 : Int) + (ct.length : Int)).toNat = 3 + ct.length := by omega
  rw [parseCached, if_neg c1, ht, ParseInt_fmtD03 _ h]
  simp only [if_neg c2, e]
  simp [serializeCached, List.take_append_eq_append_take, List.drop_append_eq_append_drop, hl]

/-- C1. Round trip of the cache codec: for every content type of at most 999
bytes and every body (empty, of arbitrary bytes, starting with digits),
`parseCached (serializeCached ct body)` returns `ct` and `body` with a nil
error. -/
theorem codec_round_trip (ct body : GoString) (h : ct.length ≤ 999) :
    parseCached (serializeCached ct body) = Parsed.ok ct body :=
  parseCached_serializeCached ct body h

/-- C1, at the content type `application/json` and a body that starts with
digits. -/
theorem codec_round_trip_witness :
    (str "application/json").length ≤ 999 ∧
    serializeCached (str "application/json") (str "123") = str "016application/json123" ∧
    parseCached (serializeCached (str "application/json") (str "123")) =
      Parsed.ok (str "application/json") (str "123") :=
  ⟨by decide, by decide, codec_round_trip _ _ (by decide)⟩

/-- C2. The stored value `005ab` declares 5 content-type bytes and holds 2:
`parseCached` panics at `resp[3:8]` instead of returning an error, and the
handler that finds this value in the cache panics before it replies. -/
theorem parseCached_panics_on_short_value :
    parseCached (str "005ab") = Parsed.panic ∧
    (handler (storedState (str "005ab")) demoRequest
      (demoWorld 5000000000 Upstream.invalid)).reply = Reply.panic :=
  ⟨by decide, by decide!⟩

/-- A stored value of fewer than 3 bytes makes `parseCached` panic at `resp[:3]`. -/
theorem parseCached_panics_below_three (resp : GoString) (h : resp.length < 3) :
    parseCached resp = Parsed.panic := by
  simp [parseCached, h]

/-- A negative declared length makes `parseCached` panic. -/
theorem parseCached_panics_on_negative : parseCached (str "-01abc") = Parsed.panic := by
  decide

/-- The part of C2 the code does: when the value has at least 3 bytes and
`strconv.ParseInt` rejects the first 3, `parseCached` returns that error. -/
theorem parseCached_error (resp : GoString) (e : NumError) (h3 : 3 ≤ resp.length)
    (h : ParseInt (resp.take 3) = .error e) : parseCached resp = Parsed.err e := by
  have c1 : ¬ resp.length < 3 := by omega
  rw [parseCached, if_neg c1, h]

/-! ## `base32.StdEncoding` can be read back -/

/-- Every 5-bit value is read back from its character, which is not the padding. -/
theorem b32Val_b32Char_fin :
    ∀ i : Fin 32, b32Val (b32Char i.val) = i.val ∧ b32Char i.val ≠ b32Pad := by
  decide!

theorem b32Char_mod (x : Nat) : b32Char (x % 32) = b32Char x := by
  simp [b32Char]

theorem b32Val_b32Char (x : Nat) : b32Val (b32Char x) = x % 32 := by
  have := (b32Val_b32Char_fin ⟨x % 32, Nat.mod_lt _ (by decide)⟩).1
  simpa [b32Char_mod] using this

theorem b32Char_ne_pad (x : Nat) : b32Char x ≠ b32Pad := by
  have := (b32Val_b32Char_fin ⟨x % 32, Nat.mod_lt _ (by decide)⟩).2
  simpa [b32Char_mod] using this

theorem b32Val_pad : b32Val b32Pad = 0 := by decide

/-- The number read from the 8 characters of a group is the group. -/
theorem b32Num_quantum (b0 b1 b2 b3 b4 : Nat) (h0 : b0 < 256) (h1 : b1 < 256) (h2 : b2 < 256)
    (h3 : b3 < 256) (h4 : b4 < 256) :
    (b0 * 2 ^ 24 + b1 * 2 ^ 16 + b2 * 2 ^ 8 + b3) / 2 ^ 27 % 32 * 2 ^ 35 +
      (b0 * 2 ^ 24 + b1 * 2 ^ 16 + b2 * 2 ^ 8 + b3) / 2 ^ 22 % 32 * 2 ^ 30 +
      (b0 * 2 ^ 24 + b1 * 2 ^ 16 + b2 * 2 ^ 8 + b3) / 2 ^ 17 % 32 * 2 ^ 25 +
      (b0 * 2 ^ 24 + b1 * 2 ^ 16 + b2 * 2 ^ 8 + b3) / 2 ^ 12 % 32 * 2 ^ 20 +
      (b0 * 2 ^ 24 + b1 * 2 ^ 16 + b2 * 2 ^ 8 + b3) / 2 ^ 7 % 32 * 2 ^ 15 +
      (b0 * 2 ^ 24 + b1 * 2 ^ 16 + b2 * 2 ^ 8 + b3) / 2 ^ 2 % 32 * 2 ^ 10 +
      ((b0 * 2 ^ 24 + b1 * 2 ^ 16 + b2 * 2 ^ 8 + b3) * 2 ^ 8 + b4) % 2 ^ 32 / 2 ^ 5 % 32 * 2 ^ 5 +
      ((b0 * 2 ^ 24 + b1 * 2 ^ 16 + b2 * 2 ^ 8 + b3) * 2 ^ 8 + b4) % 2 ^ 32 % 32 =
    b0 * 2 ^ 32 + b1 * 2 ^ 24 + b2 * 2 ^ 16 + b3 * 2 ^ 8 + b4 := by
  omega

/-- The bytes of the number of a group are the bytes of the group. -/
theorem b32Bytes_group (b0 b1 b2 b3 b4 : Byte) :
    b32Bytes (b0.val * 2 ^ 32 + b1.val * 2 ^ 24 + b2.val * 2 ^ 16 + b3.val * 2 ^ 8 + b4.val) =
      [b0, b1, b2, b3, b4] := by
  have e : ∀ (n : Nat) (b : Byte), n % 256 = b.val → (Fin.ofNat n : Byte) = b :=
    fun n b h => Fin.ext h
  simp only [b32Bytes, List.cons.injEq, and_true]
  refine ⟨e _ _ ?_, e _ _ ?_, e _ _ ?_, e _ _ ?_, e _ _ ?_⟩ <;> omega

theorem b32Num_chars (b0 b1 b2 b3 b4 : Byte) :
    b32Num (b32Char ((b0.val * 2 ^ 24 + b1.val * 2 ^ 16 + b2.val * 2 ^ 8 + b3.val) / 2 ^ 27))
      (b32Char ((b0.val * 2 ^ 24 + b1.val * 2 ^ 16 + b2.val * 2 ^ 8 + b3.val) / 2 ^ 22))
      (b32Char ((b0.val * 2 ^ 24 + b1.val * 2 ^ 16 + b2.val * 2 ^ 8 + b3.val) / 2 ^ 17))
      (b32Char ((b0.val * 2 ^ 24 + b1.val * 2 ^ 16 + b2.val * 2 ^ 8 + b3.val) / 2 ^ 12))
      (b32Char ((b0.val * 2 ^ 24 + b1.val * 2 ^ 16 + b2.val * 2 ^ 8 + b3.val) / 2 ^ 7))
      (b32Char ((b0.val * 2 ^ 24 + b1.val * 2 ^ 16 + b2.val * 2 ^ 8 + b3.val) / 2 ^ 2))
      (b32Char (((b0.val * 2 ^ 24 + b1.val * 2 ^ 16 + b2.val * 2 ^ 8 + b3.val) * 2 ^ 8 + b4.val)
        % 2 ^ 32 / 2 ^ 5))
      (b32Char (((b0.val * 2 ^ 24 + b1.val * 2 ^ 16 + b2.val * 2 ^ 8 + b3.val) * 2 ^ 8 + b4.val)
        % 2 ^ 32)) =
    b0.val * 2 ^ 32 + b1.val * 2 ^ 24 + b2.val * 2 ^ 16 + b3.val * 2 ^ 8 + b4.val := by
  simp only [b32Num, b32Val_b32Char]
  exact b32Num_quantum b0.val b1.val b2.val b3.val b4.val b0.isLt b1.isLt b2.isLt b3.isLt b4.isLt

/-- Decoding what is written for a full group gives the group back. -/
theorem base32Decode_quantum (b0 b1 b2 b3 b4 : Byte) (rest : GoString) :
    base32Decode (b32Quantum b0 b1 b2 b3 b4 ++ rest) =
      [b0, b1, b2, b3, b4] ++ base32Decode rest := by
  simp only [b32Quantum, List.cons_append, List.nil_append, base32Decode, b32Char_ne_pad,
    if_false, b32Num_chars, b32Bytes_group]
  rfl

theorem ofNat_eq_byte (n : Nat) (b : Byte) (h : n % 256 = b.val) : (Fin.ofNat n : Byte) = b :=
  Fin.ext h

theorem base32Decode_one (b0 : Byte) : base32Decode (base32Encode [b0]) = [b0] := by
  simp only [base32Encode, b32Quantum, List.take, List.replicate, List.cons_append,
    List.nil_append, base32Decode, b32Char_ne_pad, if_false, if_true, b32Num, b32Val_b32Char,
    b32Val_pad, b32Bytes, Fin.val_zero, List.cons.injEq, and_true]
  apply ofNat_eq_byte
  omega

theorem base32Decode_two (b0 b1 : Byte) : base32Decode (base32Encode [b0, b1]) = [b0, b1] := by
  simp only [base32Encode, b32Quantum, List.take, List.replicate, List.cons_append,
    List.nil_append, base32Decode, b32Char_ne_pad, if_false, if_true, b32Num, b32Val_b32Char,
    b32Val_pad, b32Bytes, Fin.val_zero, List.cons.injEq, and_true]
  refine ⟨ofNat_eq_byte _ _ ?_, ofNat_eq_byte _ _ ?_⟩ <;> omega

theorem base32Decode_three (b0 b1 b2 : Byte) :
    base32Decode (base32Encode [b0, b1, b2]) = [b0, b1, b2] := by
  simp only [base32Encode, b32Quantum, List.take, List.replicate, List.cons_append,
    List.nil_append, base32Decode, b32Char_ne_pad, if_false, if_true, b32Num, b32Val_b32Char,
    b32Val_pad, b32Bytes, Fin.val_zero, List.cons.injEq, and_true]
  refine ⟨ofNat_eq_byte _ _ ?_, ofNat_eq_byte _ _ ?_, ofNat_eq_byte _ _ ?_⟩ <;> omega

set_option maxHeartbeats 1000000 in
theorem base32Decode_four (b0 b1 b2 b3 : Byte) :
    base32Decode (base32Encode [b0, b1, b2, b3]) = [b0, b1, b2, b3] := by
  simp only [base32Encode, b32Quantum, List.take, List.replicate, List.cons_append,
    List.nil_append, base32Decode, b32Char_ne_pad, if_false, if_true, b32Num, b32Val_b32Char,
    b32Val_pad, b32Bytes, Fin.val_zero, List.cons.injEq, and_true]
  refine ⟨ofNat_eq_byte _ _ ?_, ofNat_eq_byte _ _ ?_, ofNat_eq_byte _ _ ?_,
    ofNat_eq_byte _ _ ?_⟩ <;> omega

/-- Decoding what `base32Encode` writes gives the bytes back. -/
theorem base32Decode_base32Encode : ∀ s : GoString, base32Decode (base32Encode s) = s
  | [] => rfl
  | [b0] => base32Decode_one b0
  | [b0, b1] => base32Decode_two b0 b1
  | [b0, b1, b2] => base32Decode_three b0 b1 b2
  | [b0, b1, b2, b3] => base32Decode_four b0 b1 b2 b3
  | b0 :: b1 :: b2 :: b3 :: b4 :: rest => by
    rw [base32Encode, base32Decode_quantum, base32Decode_base32Encode rest]
    rfl

/-- The method `base32.StdEncoding.EncodeToString` is injective. -/
theorem base32Encode_inj (a b : GoString) (h : base32Encode a = base32Encode b) : a = b := by
  rw [← base32Decode_base32Encode a, ← base32Decode_base32Encode b, h]

/-- The cache key determines the digest it was made from. -/
theorem keyOfSum_inj (s1 s2 : GoString) (h : keyOfSum s1 = keyOfSum s2) : s1 = s2 :=
  base32Encode_inj s1 s2 (List.append_cancel_left h)

/-! ## The throttle -/

/-- Saturating the elapsed time does not change its comparison with a second. -/
theorem timeSub_lt_second (t u : Int) : timeSub t u < second ↔ t - u < second := by
  unfold timeSub maxDuration minDuration second
  split_ifs <;> constructor <;> intro h <;> omega

theorem tryAdmit_fst (lastReq since now : Int) :
    (tryAdmit lastReq since now).1 = true ↔ second ≤ since - lastReq := by
  unfold tryAdmit
  by_cases h : timeSub since lastReq < second
  · have h2 := (timeSub_lt_second since lastReq).mp h
    simp only [if_pos h]
    constructor
    · intro hc; cases hc
    · intro hc; omega
  · have h2 : ¬ since - lastReq < second := fun hc => h ((timeSub_lt_second since lastReq).mpr hc)
    simp only [if_neg h]
    constructor
    · intro _; omega
    · intro _; trivial

theorem tryAdmit_snd_of_rejected (lastReq since now : Int)
    (h : (tryAdmit lastReq since now).1 = false) : (tryAdmit lastReq since now).2 = lastReq := by
  unfold tryAdmit at h ⊢
  by_cases hc : timeSub since lastReq < second
  · simp [hc]
  · simp [hc] at h

theorem tryAdmit_snd_of_admitted (lastReq since now : Int)
    (h : (tryAdmit lastReq since now).1 = true) : (tryAdmit lastReq since now).2 = now := by
  unfold tryAdmit at h ⊢
  by_cases hc : timeSub since lastReq < second
  · simp [hc] at h
  · simp [hc]

/-- C5. One pass through the critical section with `lastReq` stored, the
elapsed time measured at the reading `since` and the reading `now` assigned
(an attempt at a single reading has `since = now`): the attempt is admitted
iff `since - lastReq` is at least a second; a rejected attempt leaves
`lastReq` unchanged and an admitted one sets it to `now`.  Hence, after an
admitted attempt, a second attempt is admitted iff its reading is at least a
second after the first one, and of two attempts at the same instant the
second is never admitted. -/
theorem tryAdmit_step (lastReq since now : Int) :
    ((tryAdmit lastReq since now).1 = true ↔ second ≤ since - lastReq) ∧
    ((tryAdmit lastReq since now).1 = false → (tryAdmit lastReq since now).2 = lastReq) ∧
    ((tryAdmit lastReq since now).1 = true → (tryAdmit lastReq since now).2 = now) ∧
    (∀ since2 now2 : Int, (tryAdmit lastReq since now).1 = true →
      ((tryAdmit (tryAdmit lastReq since now).2 since2 now2).1 = true ↔
        second ≤ since2 - now)) ∧
    (∀ t : Int, (tryAdmit (tryAdmit lastReq t t).2 t t).1 = false) := by
  refine ⟨tryAdmit_fst _ _ _, tryAdmit_snd_of_rejected _ _ _, tryAdmit_snd_of_admitted _ _ _,
    ?_, ?_⟩
  · intro since2 now2 h
    rw [tryAdmit_snd_of_admitted _ _ _ h]
    exact tryAdmit_fst _ _ _
  · intro t
    cases h : (tryAdmit lastReq t t).1
    · rw [tryAdmit_snd_of_rejected _ _ _ h]
      exact h
    · rw [tryAdmit_snd_of_admitted _ _ _ h]
      have := (tryAdmit_fst t t t).not.mpr (by unfold second; omega)
      simpa using this

/-- C5 at concrete readings: from the zero timestamp an attempt at 5 s is
admitted and stores 5 s; attempts 0.5 s later and at the same instant are
rejected, an attempt exactly 1 s later is admitted. -/
theorem tryAdmit_step_witness :
    tryAdmit 0 5000000000 5000000000 = (true, 5000000000) ∧
    tryAdmit 5000000000 5500000000 5500000000 = (false, 5000000000) ∧
    tryAdmit 5000000000 5000000000 5000000000 = (false, 5000000000) ∧
    tryAdmit 5000000000 6000000000 6000000000 = (true, 6000000000) ∧
    ((tryAdmit 0 5000000000 5000000000).1 = true ↔ second ≤ 5000000000 - 0) :=
  ⟨by decide, by decide, by decide, by decide, (tryAdmit_step 0 5000000000 5000000000).1⟩

/-- The invariant of `runAttempts` from any stored timestamp: the final
timestamp is at least the initial one, every admitted attempt measured at
least a second after the timestamp stored before it, and the final timestamp
is the reading of the last admitted attempt. -/
theorem runAttempts_inv (attempts : List Attempt) :
    ∀ lastReq : Int, (∀ a ∈ attempts, a.since ≤ a.now) →
      (∀ a ∈ (runAttempts lastReq attempts).2, lastReq + second ≤ a.since) ∧
      (runAttempts lastReq attempts).2.Pairwise (fun a b => a.now + second ≤ b.since) ∧
      (runAttempts lastReq attempts).1 =
        (((runAttempts lastReq attempts).2.getLast?).map Attempt.now).getD lastReq ∧
      (∀ a ∈ (runAttempts lastReq attempts).2, a.since ≤ a.now) := by
  induction attempts with
  | nil => intro lastReq _; simp [runAttempts]
  | cons a rest ih =>
    intro lastReq hmono
    have ha : a.since ≤ a.now := hmono a (List.mem_cons_self _ _)
    have hrest : ∀ b ∈ rest, b.since ≤ b.now := fun b hb => hmono b (List.mem_cons_of_mem _ hb)
    cases h : (tryAdmit lastReq a.since a.now).1
    · have h2 := tryAdmit_snd_of_rejected _ _ _ h
      have := ih lastReq hrest
      simp only [runAttempts, h, h2]
      simpa using this
    · have h2 := tryAdmit_snd_of_admitted _ _ _ h
      have h1 := (tryAdmit_fst _ _ _).mp h
      obtain ⟨i1, i2, i3, i4⟩ := ih a.now hrest
      simp only [runAttempts, h, h2, if_true]
      refine ⟨?_, ?_, ?_, ?_⟩
      · intro b hb
        rcases List.mem_cons.mp hb with rfl | hb
        · omega
        · have := i1 b hb
          unfold second at *
          omega
      · exact List.pairwise_cons.mpr ⟨fun b hb => i1 b hb, i2⟩
      · rw [i3]
        cases hl : (runAttempts a.now rest).2 with
        | nil => simp
        | cons b bs =>
          obtain ⟨x, hx⟩ : ∃ x, (b :: bs).getLast? = some x :=
            ⟨(b :: bs).getLast (by simp), List.getLast?_eq_getLast _ _⟩
          simp [hx]
      · intro b hb
        rcases List.mem_cons.mp hb with rfl | hb
        · exact ha
        · exact i4 b hb

/-- The spacing of the admitted attempts when every attempt reads the clock
for `time.Since` no later than for `time.Now`. -/
theorem runAttempts_spacing_of_le (attempts : List Attempt)
    (hmono : ∀ a ∈ attempts, a.since ≤ a.now) :
    (runAttempts 0 attempts).2.Pairwise
      (fun a b => a.now + second ≤ b.since ∧ a.since + second ≤ b.since ∧
        a.now + second ≤ b.now) ∧
    (runAttempts 0 attempts).1 =
      (((runAttempts 0 attempts).2.getLast?).map Attempt.now).getD 0 ∧
    (∀ a ∈ (runAttempts 0 attempts).2.dropLast,
      a.now + second ≤ (runAttempts 0 attempts).1) := by
  obtain ⟨_, i2, i3, i4⟩ := runAttempts_inv attempts 0 hmono
  have hp : (runAttempts 0 attempts).2.Pairwise
      (fun a b => a.now + second ≤ b.since ∧ a.since + second ≤ b.since ∧
        a.now + second ≤ b.now) := by
    have i4p : (runAttempts 0 attempts).2.Pairwise (fun a b => a.since ≤ a.now ∧ b.since ≤ b.now) :=
      List.pairwise_of_forall_mem_list (fun a ha b hb => ⟨i4 a ha, i4 b hb⟩)
    refine (i2.and i4p).imp ?_
    intro a b hab
    obtain ⟨h1, h2, h3⟩ := hab
    refine ⟨h1, ?_, ?_⟩ <;> omega
  refine ⟨hp, i3, ?_⟩
  intro a ha
  rw [i3]
  generalize (runAttempts 0 attempts).2 = l at hp ha
  rcases List.eq_nil_or_concat l with rfl | ⟨init, b, hl⟩
  · simp at ha
  · rw [List.concat_eq_append] at hl
    subst hl
    rw [List.dropLast_concat] at ha
    have := (List.pairwise_append.mp hp).2.2 a ha b (by simp)
    simpa using this.2.2

/-- C6. The spacing invariant, from the zero timestamp and for every finite
sequence of attempts run one after another.  When each attempt is made at one
clock reading, whatever the readings: any two admitted attempts have readings
at least a second apart, the stored timestamp is the reading of the latest
admitted attempt (zero when none was admitted) and it is at least a second
after the reading of every earlier admitted attempt.  The same holds when an
attempt reads the clock twice, for `time.Since` and then for `time.Now`: the
admitted attempts are at least a second apart in either reading. -/
theorem runAttempts_spacing :
    (∀ readings : List Int,
      (runAttempts 0 (readings.map (fun t => Attempt.mk t t))).2.Pairwise
        (fun a b => a.now + second ≤ b.now) ∧
      (runAttempts 0 (readings.map (fun t => Attempt.mk t t))).1 =
        (((runAttempts 0 (readings.map (fun t => Attempt.mk t t))).2.getLast?).map
          Attempt.now).getD 0 ∧
      (∀ a ∈ (runAttempts 0 (readings.map (fun t => Attempt.mk t t))).2.dropLast,
        a.now + second ≤ (runAttempts 0 (readings.map (fun t => Attempt.mk t t))).1)) ∧
    (∀ attempts : List Attempt, (∀ a ∈ attempts, a.since ≤ a.now) →
      (runAttempts 0 attempts).2.Pairwise
        (fun a b => a.now + second ≤ b.since ∧ a.since + second ≤ b.since ∧
          a.now + second ≤ b.now) ∧
      (runAttempts 0 attempts).1 =
        (((runAttempts 0 attempts).2.getLast?).map Attempt.now).getD 0 ∧
      (∀ a ∈ (runAttempts 0 attempts).2.dropLast,
        a.now + second ≤ (runAttempts 0 attempts).1)) := by
  refine ⟨?_, runAttempts_spacing_of_le⟩
  intro readings
  have h := runAttempts_spacing_of_le (readings.map (fun t => Attempt.mk t t)) (by
    intro a ha
    obtain ⟨t, _, rfl⟩ := List.mem_map.mp ha
    exact le_refl t)
  exact ⟨h.1.imp (fun hab => hab.2.2), h.2.1, h.2.2⟩

/-- C6 on attempts at 2 s (admitted), 2.4 s (rejected), 3 s (admitted) and
3.9 s (rejected), at one reading each and at two readings each. -/
theorem runAttempts_spacing_witness :
    runAttempts 0 ([2000000000, 2400000000, 3000000000, 3900000000].map
        (fun t => Attempt.mk t t)) =
      (3000000000, [⟨2000000000, 2000000000⟩, ⟨3000000000, 3000000000⟩]) ∧
    (runAttempts 0 ([2000000000, 2400000000, 3000000000, 3900000000].map
        (fun t => Attempt.mk t t))).2.Pairwise (fun a b => a.now + second ≤ b.now) ∧
    runAttempts 0 [⟨2000000000, 2000000001⟩, ⟨2400000000, 2400000000⟩,
        ⟨3000000001, 3000000005⟩, ⟨3900000000, 3900000000⟩] =
      (3000000005, [⟨2000000000, 2000000001⟩, ⟨3000000001, 3000000005⟩]) ∧
    (runAttempts 0 [⟨2000000000, 2000000001⟩, ⟨2400000000, 2400000000⟩,
        ⟨3000000001, 3000000005⟩, ⟨3900000000, 3900000000⟩]).2.Pairwise
      (fun a b => a.now + second ≤ b.since ∧ a.since + second ≤ b.since ∧
        a.now + second ≤ b.now) :=
  ⟨by decide!, (runAttempts_spacing.1 _).1, by decide!,
    (runAttempts_spacing.2 _ (by decide!)).1⟩

/-! ## The order on strings -/

theorem strLe_refl : ∀ a : GoString, strLe a a = true
  | [] => rfl
  | a :: as => by simp [strLe, strLe_refl as]

theorem strLe_total : ∀ a b : GoString, strLe a b = true ∨ strLe b a = true
  | [], _ => Or.inl rfl
  | _ :: _, [] => Or.inr rfl
  | a :: as, b :: bs => by
    simp only [strLe, Bool.or_eq_true, Bool.and_eq_true, decide_eq_true_eq]
    rcases Nat.lt_trichotomy a.val b.val with h | h | h
    · exact Or.inl (Or.inl h)
    · have e : a = b := Fin.ext h
      rcases strLe_total as bs with h2 | h2
      · exact Or.inl (Or.inr ⟨e, h2⟩)
      · exact Or.inr (Or.inr ⟨e.symm, h2⟩)
    · exact Or.inr (Or.inl h)

theorem strLe_antisymm : ∀ a b : GoString, strLe a b = true → strLe b a = true → a = b
  | [], [], _, _ => rfl
  | [], _ :: _, _, h => by simp [strLe] at h
  | _ :: _, [], h, _ => by simp [strLe] at h
  | a :: as, b :: bs, h1, h2 => by
    simp only [strLe, Bool.or_eq_true, Bool.and_eq_true, decide_eq_true_eq] at h1 h2
    rcases h1 with h1 | ⟨e, h1⟩
    · rcases h2 with h2 | ⟨e2, _⟩
      · omega
      · subst e2; omega
    · subst e
      rcases h2 with h2 | ⟨_, h2⟩
      · omega
      · rw [strLe_antisymm as bs h1 h2]

theorem strLe_trans : ∀ a b c : GoString, strLe a b = true → strLe b c = true → strLe a c = true
  | [], _, _, _, _ => rfl
  | _ :: _, [], _, h, _ => by simp [strLe] at h
  | _ :: _, _ :: _, [], _, h => by simp [strLe] at h
  | a :: as, b :: bs, c :: cs, h1, h2 => by
    simp only [strLe, Bool.or_eq_true, Bool.and_eq_true, decide_eq_true_eq] at h1 h2 ⊢
    rcases h1 with h1 | ⟨e, h1⟩
    · rcases h2 with h2 | ⟨e2, _⟩
      · exact Or.inl (by omega)
      · subst e2; exact Or.inl h1
    · subst e
      rcases h2 with h2 | ⟨e2, h2⟩
      · exact Or.inl h2
      · exact Or.inr ⟨e2, strLe_trans as bs cs h1 h2⟩

/-- The sorted keys are the keys, rearranged. -/
theorem sortedKeys_perm (v : Values) : v.sortedKeys.Perm (v.map Prod.fst) :=
  List.perm_insertionSort StrLE _

/-- The sorted keys are in ascending order. -/
theorem sortedKeys_pairwise (v : Values) : v.sortedKeys.Pairwise StrLE := by
  haveI : IsTotal GoString StrLE := ⟨strLe_total⟩
  haveI : IsTrans GoString StrLE := ⟨strLe_trans⟩
  exact List.sorted_insertionSort StrLE _

/-! ## The map built from a query -/

theorem index_Add (v : Values) (k x key : GoString) :
    Values.index (Values.Add v k x) key =
      if k = key then Values.index v key ++ [x] else Values.index v key := by
  induction v with
  | nil => by_cases h : k = key <;> simp [Values.Add, Values.index, h]
  | cons e rest ih =>
    obtain ⟨k', xs⟩ := e
    by_cases h1 : k' = k
    · subst h1
      by_cases h2 : k' = key <;> simp [Values.Add, Values.index, h2]
    · by_cases h2 : k' = key
      · subst h2
        have h3 : ¬ k = k' := fun h => h1 h.symm
        simp [Values.Add, Values.index, h1, h3]
      · simp [Values.Add, Values.index, h1, h2, ih]

theorem valuesOf_append (name : GoString) (l1 l2 : List (GoString × GoString)) :
    valuesOf name (l1 ++ l2) = valuesOf name l1 ++ valuesOf name l2 := by
  induction l1 with
  | nil => rfl
  | cons p ps ih => by_cases h : p.1 = name <;> simp [valuesOf, h, ih]

theorem index_foldl_Add (l : List (GoString × GoString)) :
    ∀ (v : Values) (key : GoString),
      Values.index (l.foldl (fun v p => Values.Add v p.1 p.2) v) key =
        Values.index v key ++ valuesOf key l := by
  induction l with
  | nil => intro v key; simp [valuesOf]
  | cons p ps ih =>
    intro v key
    rw [List.foldl_cons, ih, index_Add]
    by_cases h : p.1 = key <;> simp [valuesOf, h]

/-- The map `r.URL.Query()` builds holds, under each name, the values given
for it in request order. -/
theorem index_parseQuery (l : List (GoString × GoString)) (key : GoString) :
    Values.index (parseQuery l) key = valuesOf key l := by
  rw [parseQuery, index_foldl_Add]
  rfl

theorem keys_Add (v : Values) (k x : GoString) :
    (Values.Add v k x).map Prod.fst =
      if k ∈ v.map Prod.fst then v.map Prod.fst else v.map Prod.fst ++ [k] := by
  induction v with
  | nil => simp [Values.Add]
  | cons e rest ih =>
    obtain ⟨k', xs⟩ := e
    by_cases h1 : k' = k
    · subst h1; simp [Values.Add]
    · have h1' : ¬ k = k' := fun h => h1 h.symm
      by_cases h2 : k ∈ rest.map Prod.fst
      · simp only [Values.Add, h1, if_false, List.map_cons, ih, h2, if_true, List.mem_cons,
          or_true]
      · simp only [Values.Add, h1, if_false, List.map_cons, ih, h2, List.mem_cons, h1',
          or_self, List.cons_append]

theorem nodup_keys_Add (v : Values) (k x : GoString) (h : (v.map Prod.fst).Nodup) :
    ((Values.Add v k x).map Prod.fst).Nodup := by
  rw [keys_Add]
  by_cases hk : k ∈ v.map Prod.fst
  · simpa [hk] using h
  · simp only [hk, if_false]
    exact List.Nodup.append h (List.nodup_singleton k) (by simpa using hk)

theorem nodup_keys_foldl_Add (l : List (GoString × GoString)) :
    ∀ v : Values, (v.map Prod.fst).Nodup →
      ((l.foldl (fun v p => Values.Add v p.1 p.2) v).map Prod.fst).Nodup := by
  induction l with
  | nil => intro v h; exact h
  | cons p ps ih => intro v h; exact ih _ (nodup_keys_Add v p.1 p.2 h)

/-- The map `r.URL.Query()` builds has pairwise distinct keys. -/
theorem nodup_keys_parseQuery (l : List (GoString × GoString)) :
    ((parseQuery l).map Prod.fst).Nodup :=
  nodup_keys_foldl_Add l [] List.nodup_nil

theorem index_of_not_mem (v : Values) (key : GoString) (h : key ∉ v.map Prod.fst) :
    Values.index v key = [] := by
  induction v with
  | nil => rfl
  | cons e rest ih =>
    obtain ⟨k', xs⟩ := e
    simp only [List.map_cons, List.mem_cons, not_or] at h
    have h1 : ¬ k' = key := fun hc => h.1 hc.symm
    simp [Values.index, h1, ih h.2]

/-! ## `Values.Encode` as a function of the pairs it writes -/

theorem foldl_pairs (v : Values) (ks : List GoString) :
    ∀ buf : GoString,
      ks.foldl (fun buf k => (v.index k).foldl (encodeStep (QueryEscape k)) buf) buf =
        encodePairs buf (Values.pairs v ks) := by
  induction ks with
  | nil => intro buf; rfl
  | cons k ks ih =>
    intro buf
    rw [List.foldl_cons, ih, Values.pairs, encodePairs, encodePairs, List.foldl_append,
      List.foldl_map]

/-- The method `Values.Encode` writes the pairs of the sorted keys. -/
theorem Encode_eq (v : Values) : v.Encode = encodePairs [] (Values.pairs v v.sortedKeys) :=
  foldl_pairs v v.sortedKeys []

theorem valuesOf_map_pair (name k : GoString) (xs : List GoString) :
    valuesOf name (xs.map (fun x => (k, x))) = if k = name then xs else [] := by
  induction xs with
  | nil => simp [valuesOf]
  | cons x xs ih =>
    by_cases h : k = name
    · subst h
      simpa [valuesOf] using ih
    · simpa [valuesOf, h] using ih

theorem valuesOf_pairs (v : Values) (name : GoString) (ks : List GoString) (hk : ks.Nodup) :
    valuesOf name (Values.pairs v ks) = if name ∈ ks then Values.index v name else [] := by
  induction ks with
  | nil => simp [Values.pairs, valuesOf]
  | cons k ks ih =>
    have hk' := List.nodup_cons.mp hk
    rw [Values.pairs, valuesOf_append, valuesOf_map_pair, ih hk'.2]
    by_cases h : k = name
    · subst h
      simp [hk'.1]
    · have h' : ¬ name = k := fun hc => h hc.symm
      simp [h, h']

/-- The pairs `Values.Encode` writes hold, under each name, the values of the map. -/
theorem valuesOf_pairs_sortedKeys (v : Values) (hv : (v.map Prod.fst).Nodup)
    (name : GoString) : valuesOf name (Values.pairs v v.sortedKeys) = Values.index v name := by
  have hp := sortedKeys_perm v
  rw [valuesOf_pairs v name _ (hp.nodup_iff.mpr hv)]
  by_cases h : name ∈ v.sortedKeys
  · simp [h]
  · simp only [h, if_false]
    exact (index_of_not_mem v name (fun hc => h (hp.mem_iff.mpr hc))).symm

theorem pairs_keys_mem (v : Values) (ks : List GoString) :
    ∀ p ∈ Values.pairs v ks, p.1 ∈ ks := by
  induction ks with
  | nil => intro p hp; simp [Values.pairs] at hp
  | cons k ks ih =>
    intro p hp
    rw [Values.pairs, List.mem_append] at hp
    rcases hp with hp | hp
    · obtain ⟨x, _, rfl⟩ := List.mem_map.mp hp
      exact List.mem_cons_self _ _
    · exact List.mem_cons_of_mem _ (ih p hp)

theorem pairs_pairwise (v : Values) (ks : List GoString) (hs : ks.Pairwise StrLE) :
    (Values.pairs v ks).Pairwise (fun p q => StrLE p.1 q.1) := by
  induction ks with
  | nil => simp [Values.pairs]
  | cons k ks ih =>
    have hs' := List.pairwise_cons.mp hs
    rw [Values.pairs, List.pairwise_append]
    refine ⟨?_, ih hs'.2, ?_⟩
    · rw [List.pairwise_map]
      exact List.pairwise_of_forall (fun _ _ => strLe_refl k)
    · intro p hp q hq
      obtain ⟨x, _, rfl⟩ := List.mem_map.mp hp
      exact hs'.1 _ (pairs_keys_mem v ks q hq)

theorem valuesOf_ne_nil_of_mem (name : GoString) (l : List (GoString × GoString))
    (p : GoString × GoString) (hp : p ∈ l) (h : p.1 = name) : valuesOf name l ≠ [] := by
  induction l with
  | nil => simp at hp
  | cons q qs ih =>
    by_cases hq : q.1 = name
    · simp [valuesOf, hq]
    · rcases List.mem_cons.mp hp with rfl | hp
      · exact absurd h hq
      · simpa [valuesOf, hq] using ih hp

theorem mem_of_valuesOf_ne_nil (name : GoString) (l : List (GoString × GoString))
    (h : valuesOf name l ≠ []) : ∃ p ∈ l, p.1 = name := by
  induction l with
  | nil => simp [valuesOf] at h
  | cons q qs ih =>
    by_cases hq : q.1 = name
    · exact ⟨q, List.mem_cons_self _ _, hq⟩
    · simp only [valuesOf, hq, if_false] at h
      obtain ⟨p, hp, e⟩ := ih h
      exact ⟨p, List.mem_cons_of_mem _ hp, e⟩

/-- A list of pairs in ascending order of name is determined by the values
it gives for each name. -/
theorem eq_of_valuesOf_eq (l1 : List (GoString × GoString)) :
    ∀ l2 : List (GoString × GoString),
      l1.Pairwise (fun p q => StrLE p.1 q.1) → l2.Pairwise (fun p q => StrLE p.1 q.1) →
      (∀ name, valuesOf name l1 = valuesOf name l2) → l1 = l2 := by
  induction l1 with
  | nil =>
    intro l2 _ _ h
    cases l2 with
    | nil => rfl
    | cons q qs =>
      have := h q.1
      simp [valuesOf] at this
  | cons p ps ih =>
    intro l2 s1 s2 h
    cases l2 with
    | nil =>
      have := h p.1
      simp [valuesOf] at this
    | cons q qs =>
      have s1' := List.pairwise_cons.mp s1
      have s2' := List.pairwise_cons.mp s2
      have hpq : StrLE q.1 p.1 := by
        have hne : valuesOf p.1 (q :: qs) ≠ [] := by
          rw [← h p.1]; simp [valuesOf]
        obtain ⟨r, hr, e⟩ := mem_of_valuesOf_ne_nil _ _ hne
        rcases List.mem_cons.mp hr with rfl | hr
        · rw [e]; exact strLe_refl _
        · rw [← e]; exact s2'.1 r hr
      have hqp : StrLE p.1 q.1 := by
        have hne : valuesOf q.1 (p :: ps) ≠ [] := by
          rw [h q.1]; simp [valuesOf]
        obtain ⟨r, hr, e⟩ := mem_of_valuesOf_ne_nil _ _ hne
        rcases List.mem_cons.mp hr with rfl | hr
        · rw [e]; exact strLe_refl _
        · rw [← e]; exact s1'.1 r hr
      have hk : p.1 = q.1 := strLe_antisymm _ _ hqp hpq
      have hh := h p.1
      simp only [valuesOf, if_true, hk.symm] at hh
      have hx : p.2 = q.2 := (List.cons.inj hh).1
      have htail : ∀ name, valuesOf name ps = valuesOf name qs := by
        intro name
        by_cases hn : p.1 = name
        · subst hn; exact (List.cons.inj hh).2
        · have hn' : ¬ q.1 = name := fun hc => hn (hk.trans hc)
          have := h name
          simpa [valuesOf, hn, hn'] using this
      rw [ih qs s1'.2 s2'.2 htail, Prod.ext hk hx]

/-- The pairs written for the map of a query depend only on the values given
for each name. -/
theorem pairs_parseQuery_congr (l1 l2 : List (GoString × GoString))
    (h : ∀ name, valuesOf name l1 = valuesOf name l2) :
    Values.pairs (parseQuery l1) (parseQuery l1).sortedKeys =
      Values.pairs (parseQuery l2) (parseQuery l2).sortedKeys := by
  apply eq_of_valuesOf_eq
  · exact pairs_pairwise _ _ (sortedKeys_pairwise _)
  · exact pairs_pairwise _ _ (sortedKeys_pairwise _)
  · intro name
    rw [valuesOf_pairs_sortedKeys _ (nodup_keys_parseQuery l1),
      valuesOf_pairs_sortedKeys _ (nodup_keys_parseQuery l2), index_parseQuery, index_parseQuery]
    exact h name

/-- The encoded query depends only on the values given for each name. -/
theorem Encode_parseQuery_congr (l1 l2 : List (GoString × GoString))
    (h : ∀ name, valuesOf name l1 = valuesOf name l2) :
    (parseQuery l1).Encode = (parseQuery l2).Encode := by
  rw [Encode_eq, Encode_eq, pairs_parseQuery_congr l1 l2 h]

/-! ## `url.QueryEscape` and `Values.Encode` can be read back -/

theorem append_sep_inj (c : Byte) (s1 : GoString) :
    ∀ (s2 r1 r2 : GoString), c ∉ s1 → c ∉ s2 → (r1 = [] ∨ ∃ t, r1 = c :: t) →
      (r2 = [] ∨ ∃ t, r2 = c :: t) → s1 ++ r1 = s2 ++ r2 → s1 = s2 ∧ r1 = r2 := by
  induction s1 with
  | nil =>
    intro s2 r1 r2 _ h2 hr1 _ h
    cases s2 with
    | nil => exact ⟨rfl, h⟩
    | cons b s2 =>
      exfalso
      rw [List.nil_append, List.cons_append] at h
      rcases hr1 with e | ⟨t, e⟩
      · rw [e] at h; cases h
      · rw [e] at h
        exact h2 (by rw [(List.cons.inj h).1]; exact List.mem_cons_self _ _)
  | cons a s1 ih =>
    intro s2 r1 r2 h1 h2 hr1 hr2 h
    cases s2 with
    | nil =>
      exfalso
      rw [List.nil_append, List.cons_append] at h
      rcases hr2 with e | ⟨t, e⟩
      · rw [e] at h; cases h
      · rw [e] at h
        exact h1 (by rw [← (List.cons.inj h).1]; exact List.mem_cons_self _ _)
    | cons b s2 =>
      rw [List.cons_append, List.cons_append] at h
      obtain ⟨e, h⟩ := List.cons.inj h
      obtain ⟨e1, e2⟩ := ih s2 r1 r2 (fun hc => h1 (List.mem_cons_of_mem _ hc))
        (fun hc => h2 (List.mem_cons_of_mem _ hc)) hr1 hr2 h
      exact ⟨by rw [e, e1], e2⟩

/-- No escaped byte contains `&` or `=`, and none is empty. -/
theorem escapeByte_no_sep :
    ∀ a : Byte, (38 : Byte) ∉ escapeByte a ∧ (61 : Byte) ∉ escapeByte a ∧ escapeByte a ≠ [] := by
  decide!

/-- A byte written as itself is neither `+` nor `%`. -/
theorem plain_ne_mark : ∀ a : Byte, shouldEscape a = false → a ≠ 43 ∧ a ≠ 37 := by
  decide!

/-- The hexadecimal digits are pairwise distinct. -/
theorem upperhex_inj :
    ∀ i : Fin 16, ∀ j : Fin 16, upperhex.getD i.val 0 = upperhex.getD j.val 0 → i = j := by
  decide!

/-- The three shapes of what is written for one byte. -/
theorem escapeByte_shape (a : Byte) :
    (a = 32 ∧ escapeByte a = [43]) ∨
    (escapeByte a = [37, upperhex.getD (a.val / 16) 0, upperhex.getD (a.val % 16) 0]) ∨
    (a ≠ 43 ∧ a ≠ 37 ∧ escapeByte a = [a]) := by
  unfold escapeByte
  by_cases h1 : a = 32
  · exact Or.inl ⟨h1, by simp [h1]⟩
  · by_cases h2 : shouldEscape a = true
    · exact Or.inr (Or.inl (by simp [h1, h2]))
    · have h3 : shouldEscape a = false := by simpa using h2
      exact Or.inr (Or.inr ⟨(plain_ne_mark a h3).1, (plain_ne_mark a h3).2, by simp [h1, h3]⟩)

theorem byte_eq_of_hex_eq (a b : Byte)
    (h1 : upperhex.getD (a.val / 16) 0 = upperhex.getD (b.val / 16) 0)
    (h2 : upperhex.getD (a.val % 16) 0 = upperhex.getD (b.val % 16) 0) : a = b := by
  have e1 := congrArg Fin.val
    (upperhex_inj ⟨a.val / 16, by omega⟩ ⟨b.val / 16, by omega⟩ h1)
  have e2 := congrArg Fin.val
    (upperhex_inj ⟨a.val % 16, by omega⟩ ⟨b.val % 16, by omega⟩ h2)
  simp only at e1 e2
  exact Fin.ext (by omega)

/-- What is written for one byte determines the byte and where it ends. -/
theorem escapeByte_append_inj (a b : Byte) (r1 r2 : GoString)
    (h : escapeByte a ++ r1 = escapeByte b ++ r2) : a = b ∧ r1 = r2 := by
  have c1 : (43 : Byte) ≠ 37 := by decide
  rcases escapeByte_shape a with ⟨ha, ea⟩ | ea | ⟨ha1, ha2, ea⟩ <;>
    rcases escapeByte_shape b with ⟨hb, eb⟩ | eb | ⟨hb1, hb2, eb⟩ <;>
    rw [ea, eb] at h <;>
    simp only [List.cons_append, List.nil_append, List.cons.injEq] at h
  · exact ⟨ha.trans hb.symm, h.2⟩
  · exact absurd h.1 c1
  · exact absurd h.1.symm hb1
  · exact absurd h.1.symm c1
  · exact ⟨byte_eq_of_hex_eq a b h.2.1 h.2.2.1, h.2.2.2⟩
  · exact absurd h.1.symm hb2
  · exact absurd h.1 ha1
  · exact absurd h.1 ha2
  · exact ⟨h.1, h.2⟩

theorem QueryEscape_no_sep (s : GoString) :
    (38 : Byte) ∉ QueryEscape s ∧ (61 : Byte) ∉ QueryEscape s := by
  induction s with
  | nil => simp [QueryEscape]
  | cons a s ih =>
    have h := escapeByte_no_sep a
    simp only [QueryEscape, List.mem_append, not_or]
    exact ⟨⟨h.1, ih.1⟩, ⟨h.2.1, ih.2⟩⟩

/-- The function `url.QueryEscape` is injective. -/
theorem QueryEscape_inj (s1 : GoString) :
    ∀ s2 : GoString, QueryEscape s1 = QueryEscape s2 → s1 = s2 := by
  induction s1 with
  | nil =>
    intro s2 h
    cases s2 with
    | nil => rfl
    | cons b s2 =>
      exfalso
      simp only [QueryEscape] at h
      exact (escapeByte_no_sep b).2.2 (List.append_eq_nil.mp h.symm).1
  | cons a s1 ih =>
    intro s2 h
    cases s2 with
    | nil =>
      exfalso
      simp only [QueryEscape] at h
      exact (escapeByte_no_sep a).2.2 (List.append_eq_nil.mp h).1
    | cons b s2 =>
      simp only [QueryEscape] at h
      obtain ⟨hab, hr⟩ := escapeByte_append_inj a b _ _ h
      rw [hab, ih s2 hr]

theorem encodeSegment_no_amp (p : GoString × GoString) : (38 : Byte) ∉ encodeSegment p := by
  simp only [encodeSegment, List.mem_append, List.mem_cons, not_or]
  exact ⟨(QueryEscape_no_sep p.1).1, by decide, (QueryEscape_no_sep p.2).1⟩

theorem encodeSegment_ne_nil (p : GoString × GoString) : encodeSegment p ≠ [] := by
  simp [encodeSegment]

theorem encodeSegment_inj (p q : GoString × GoString) (h : encodeSegment p = encodeSegment q) :
    p = q := by
  obtain ⟨e1, e2⟩ := append_sep_inj 61 _ _ _ _ (QueryEscape_no_sep p.1).2
    (QueryEscape_no_sep q.1).2 (Or.inr ⟨_, rfl⟩) (Or.inr ⟨_, rfl⟩) h
  exact Prod.ext (QueryEscape_inj _ _ e1) (QueryEscape_inj _ _ (List.cons.inj e2).2)

theorem ampSegments_shape (ps : List (GoString × GoString)) :
    ampSegments ps = [] ∨ ∃ t, ampSegments ps = (38 : Byte) :: t := by
  cases ps with
  | nil => exact Or.inl rfl
  | cons p ps => exact Or.inr ⟨_, rfl⟩

theorem ampSegments_inj (l1 : List (GoString × GoString)) :
    ∀ l2 : List (GoString × GoString), ampSegments l1 = ampSegments l2 → l1 = l2 := by
  induction l1 with
  | nil =>
    intro l2 h
    cases l2 with
    | nil => rfl
    | cons q qs => simp [ampSegments] at h
  | cons p ps ih =>
    intro l2 h
    cases l2 with
    | nil => simp [ampSegments] at h
    | cons q qs =>
      simp only [ampSegments, List.cons.injEq, true_and] at h
      obtain ⟨e1, e2⟩ := append_sep_inj 38 _ _ _ _ (encodeSegment_no_amp p)
        (encodeSegment_no_amp q) (ampSegments_shape ps) (ampSegments_shape qs) h
      rw [encodeSegment_inj p q e1, ih qs e2]

theorem encodePairs_of_ne_nil (ps : List (GoString × GoString)) :
    ∀ buf : GoString, buf ≠ [] → encodePairs buf ps = buf ++ ampSegments ps := by
  induction ps with
  | nil => intro buf _; simp [encodePairs, ampSegments]
  | cons p ps ih =>
    intro buf hb
    have hl : buf.length > 0 := List.length_pos.mpr hb
    have hne : encodeStep (QueryEscape p.1) buf p.2 ≠ [] := by
      simp [encodeStep, hl, hb]
    have := ih _ hne
    simp only [encodePairs, List.foldl_cons] at this ⊢
    rw [this]
    simp [encodeStep, hl, ampSegments, encodeSegment]

theorem encodePairs_nil_cons (p : GoString × GoString) (ps : List (GoString × GoString)) :
    encodePairs [] (p :: ps) = encodeSegment p ++ ampSegments ps := by
  have hne : encodeStep (QueryEscape p.1) [] p.2 ≠ [] := by simp [encodeStep]
  have := encodePairs_of_ne_nil ps _ hne
  simp only [encodePairs, List.foldl_cons] at this ⊢
  rw [this]
  simp [encodeStep, encodeSegment]

/-- The pairs can be read back from what `Values.Encode` writes for them. -/
theorem encodePairs_inj (l1 l2 : List (GoString × GoString))
    (h : encodePairs [] l1 = encodePairs [] l2) : l1 = l2 := by
  cases l1 with
  | nil =>
    cases l2 with
    | nil => rfl
    | cons q qs =>
      exfalso
      rw [encodePairs_nil_cons] at h
      exact encodeSegment_ne_nil q (List.append_eq_nil.mp h.symm).1
  | cons p ps =>
    cases l2 with
    | nil =>
      exfalso
      rw [encodePairs_nil_cons] at h
      exact encodeSegment_ne_nil p (List.append_eq_nil.mp h).1
    | cons q qs =>
      rw [encodePairs_nil_cons, encodePairs_nil_cons] at h
      obtain ⟨e1, e2⟩ := append_sep_inj 38 _ _ _ _ (encodeSegment_no_amp p)
        (encodeSegment_no_amp q) (ampSegments_shape ps) (ampSegments_shape qs) h
      rw [encodeSegment_inj p q e1, ampSegments_inj ps qs e2]

/-- Two queries with the same encoded form give every name the same values
in the same order. -/
theorem valuesOf_eq_of_Encode_eq (l1 l2 : List (GoString × GoString))
    (h : (parseQuery l1).Encode = (parseQuery l2).Encode) (name : GoString) :
    valuesOf name l1 = valuesOf name l2 := by
  rw [Encode_eq, Encode_eq] at h
  have hp := encodePairs_inj _ _ h
  rw [← index_parseQuery l1, ← index_parseQuery l2,
    ← valuesOf_pairs_sortedKeys _ (nodup_keys_parseQuery l1),
    ← valuesOf_pairs_sortedKeys _ (nodup_keys_parseQuery l2), hp]

/-- Reordering a query in which no name is repeated leaves the values of
every name unchanged. -/
theorem valuesOf_perm_of_nodup (l1 l2 : List (GoString × GoString)) (hp : l1.Perm l2)
    (hn : (l1.map Prod.fst).Nodup) (name : GoString) : valuesOf name l1 = valuesOf name l2 := by
  induction hp with
  | nil => rfl
  | cons x _ ih =>
    have := ih (List.nodup_cons.mp hn).2
    by_cases h : x.1 = name <;> simp [valuesOf, h, this]
  | swap x y l =>
    have hxy : y.1 ≠ x.1 := by
      intro hc
      have := (List.nodup_cons.mp hn).1
      simp [hc] at this
    by_cases h1 : x.1 = name
    · have h2 : ¬ y.1 = name := fun hc => hxy (hc.trans h1.symm)
      simp [valuesOf, h1, h2]
    · by_cases h2 : y.1 = name <;> simp [valuesOf, h1, h2]
  | trans h1 _ ih1 ih2 =>
    exact (ih1 hn).trans (ih2 ((h1.map Prod.fst).nodup_iff.mp hn))

/-! ## The cache key -/

/-- C3, as stated, fails: the requests `/p?a=1&a=2` and `/p?a=2&a=1` of the
credential `k` hold the same name/value pairs in a different order, and their
cache keys differ. -/
theorem cacheKey_order_counterexample :
    [(str "a", str "1"), (str "a", str "2")].Perm [(str "a", str "2"), (str "a", str "1")] ∧
    (parseQuery [(str "a", str "1"), (str "a", str "2")]).Encode = str "a=1&a=2" ∧
    (parseQuery [(str "a", str "2"), (str "a", str "1")]).Encode = str "a=2&a=1" ∧
    cacheKey (str "k") (str "/p") (parseQuery [(str "a", str "1"), (str "a", str "2")]) =
      str "flickr-api-proxy:cache:RUGQALWABEWEQZFLKOGLN5HTMSWJU357QKCLRCUMW52Y6KMJ5RFQ====" ∧
    cacheKey (str "k") (str "/p") (parseQuery [(str "a", str "2"), (str "a", str "1")]) =
      str "flickr-api-proxy:cache:FS7SJ7HPINCZWJZZNLSUJVQRD7BJBH6WO4BLKFFGYAMMRRUE2LLQ====" ∧
    cacheKey (str "k") (str "/p") (parseQuery [(str "a", str "1"), (str "a", str "2")]) ≠
      cacheKey (str "k") (str "/p") (parseQuery [(str "a", str "2"), (str "a", str "1")]) :=
  ⟨List.Perm.swap _ _ _, by decide!, by decide!, by decide!, by decide!, by decide!⟩

/-- C3, amended. For every credential and path and any two queries that give
every name the same values in the same relative order, whatever the order of
the parameters of different names, `cacheKey` returns the same key. -/
theorem cacheKey_order_independent (apiKey path : GoString)
    (q1 q2 : List (GoString × GoString))
    (h : ∀ name, valuesOf name q1 = valuesOf name q2) :
    cacheKey apiKey path (parseQuery q1) = cacheKey apiKey path (parseQuery q2) := by
  unfold cacheKey hashInput
  rw [Encode_parseQuery_congr q1 q2 h]

/-- C3, amended, on the requests `/p?a=1&b=2` and `/p?b=2&a=1`. -/
theorem cacheKey_order_independent_witness :
    cacheKey (str "k") (str "/p") (parseQuery [(str "a", str "1"), (str "b", str "2")]) =
      cacheKey (str "k") (str "/p") (parseQuery [(str "b", str "2"), (str "a", str "1")]) ∧
    cacheKey (str "k") (str "/p") (parseQuery [(str "a", str "1"), (str "b", str "2")]) =
      str "flickr-api-proxy:cache:TJIJCEVA35GUV3IQZHCATXFM2FQDROR2DDZZCQGAKY5UK4H3NRUQ====" :=
  ⟨cacheKey_order_independent _ _ _ _
      (valuesOf_perm_of_nodup _ _ (List.Perm.swap _ _ _) (by decide)),
    by decide!⟩

/-- C4, as stated, fails: the credential `a/b` asking for `/c` and the
credential `a` asking for `/b/c` feed the same bytes to the hash and get the
same cache key; so do the path `/x` with the query `a=1` and the path `/xa=1`
with no query. -/
theorem cacheKey_collision :
    (str "a/b", str "/c") ≠ (str "a", str "/b/c") ∧
    hashInput (str "a/b") (str "/c") (parseQuery []) =
      hashInput (str "a") (str "/b/c") (parseQuery []) ∧
    cacheKey (str "a/b") (str "/c") (parseQuery []) =
      cacheKey (str "a") (str "/b/c") (parseQuery []) ∧
    cacheKey (str "a/b") (str "/c") (parseQuery []) =
      str "flickr-api-proxy:cache:25VHW4TGTSOOYJTLKZV55RUO7PENJ4RND4TITO7QCRV7BOEP3PUQ====" ∧
    hashInput (str "k") (str "/x") (parseQuery [(str "a", str "1")]) =
      hashInput (str "k") (str "/xa=1") (parseQuery []) :=
  ⟨by decide, by decide!, by decide!, by decide!, by decide!⟩

/-- C4, amended. The cache key is an injective function of the digest; so two
triples get the same key exactly when SHA-256 gives their hash inputs the same
digest.  The hash input `credential ++ path ++ encoded query` is injective in
the credential for a given path and query, in the path for a given credential
and query, and in the parameters (the values given for each name, in order)
for a given credential and path. -/
theorem cacheKey_distinct :
    (∀ s1 s2 : GoString, keyOfSum s1 = keyOfSum s2 → s1 = s2) ∧
    (∀ (k1 p1 k2 p2 : GoString) (q1 q2 : Values),
      cacheKey k1 p1 q1 = cacheKey k2 p2 q2 ↔
        Sha256.sum (hashInput k1 p1 q1) = Sha256.sum (hashInput k2 p2 q2)) ∧
    (∀ (k1 k2 p : GoString) (q : Values), hashInput k1 p q = hashInput k2 p q → k1 = k2) ∧
    (∀ (k p1 p2 : GoString) (q : Values), hashInput k p1 q = hashInput k p2 q → p1 = p2) ∧
    (∀ (k p : GoString) (q1 q2 : List (GoString × GoString)),
      hashInput k p (parseQuery q1) = hashInput k p (parseQuery q2) →
        ∀ name, valuesOf name q1 = valuesOf name q2) := by
  refine ⟨keyOfSum_inj, ?_, ?_, ?_, ?_⟩
  · intro k1 p1 k2 p2 q1 q2
    exact ⟨fun h => keyOfSum_inj _ _ h, fun h => by unfold cacheKey; rw [h]⟩
  · intro k1 k2 p q h
    exact List.append_cancel_right (List.append_cancel_right h)
  · intro k p1 p2 q h
    exact List.append_cancel_left (List.append_cancel_right h)
  · intro k p q1 q2 h
    exact valuesOf_eq_of_Encode_eq q1 q2 (List.append_cancel_left h)

/-- C4, amended, on two credentials asking for the same path and query: the
hash inputs differ, and so do the keys. -/
theorem cacheKey_distinct_witness :
    hashInput (str "k1") (str "/p") (parseQuery [(str "a", str "1")]) ≠
      hashInput (str "k2") (str "/p") (parseQuery [(str "a", str "1")]) ∧
    cacheKey (str "k1") (str "/p") (parseQuery [(str "a", str "1")]) ≠
      cacheKey (str "k2") (str "/p") (parseQuery [(str "a", str "1")]) :=
  ⟨fun h => absurd (cacheKey_distinct.2.2.1 _ _ _ _ h) (by decide), by decide!⟩

/-! ## The handler -/

theorem serializeCached_ne_nil (ct body : GoString) : serializeCached ct body ≠ [] := by
  intro h
  have hl := congrArg List.length h
  simp only [serializeCached, fmtD03, List.length_append, List.length_replicate,
    List.length_nil] at hl
  omega

theorem get_set_self (s : Store) (key : GoString) (e : Entry) : (s.set key e).get key = e.value := by
  simp [Store.get, Store.set]

/-- The call `http.Error` with a code from 100 to 999 replies. -/
theorem httpError_of_valid (msg : GoString) (code : Int) (h1 : 100 ≤ code) (h2 : code ≤ 999) :
    httpError msg code = Reply.error msg code := by
  have h : ¬ (code < 100 ∨ 999 < code) := by omega
  simp [httpError, h]

/-- The call `http.Error` with a code below 100 or above 999 panics. -/
theorem httpError_of_invalid (msg : GoString) (code : Int) (h : code < 100 ∨ 999 < code) :
    httpError msg code = Reply.panic := by
  simp [httpError, h]

/-- The handler on a miss that is admitted, when upstream answers with a
status code other than 200. -/
theorem handler_miss_non_ok (s : State) (r : Request) (w : World) (code : Int)
    (status ct : GoString) (body : Option GoString)
    (hkey : r.apiKey ≠ []) (hget : w.getFails = false)
    (hmiss : s.rdb.get (cacheKey r.apiKey r.path (parseQuery r.query)) = [])
    (hadm : second ≤ w.since - s.lastReq)
    (hup : w.upstream = Upstream.response code status ct body) (hcode : code ≠ 200) :
    handler s r w =
      ⟨⟨s.rdb, w.now⟩, httpError status code,
        [Effect.storeGet (cacheKey r.apiKey r.path (parseQuery r.query)),
          Effect.upstreamGet (upstreamURL r)]⟩ := by
  have h1 := (tryAdmit_fst s.lastReq w.since w.now).mpr hadm
  have h2 := tryAdmit_snd_of_admitted _ _ _ h1
  simp [handler, hkey, hget, hmiss, h1, h2, hup, hcode]

/-- The handler on a miss that is admitted, when upstream answers 200 and the
body is read: what the store write decides. -/
theorem handler_miss_ok (s : State) (r : Request) (w : World) (status ct b : GoString)
    (hkey : r.apiKey ≠ []) (hget : w.getFails = false)
    (hmiss : s.rdb.get (cacheKey r.apiKey r.path (parseQuery r.query)) = [])
    (hadm : second ≤ w.since - s.lastReq)
    (hup : w.upstream = Upstream.response 200 status ct (some b)) :
    handler s r w =
      if w.setFails then
        ⟨⟨s.rdb, w.now⟩, Reply.error (str "failed to cache response") 500,
          [Effect.storeGet (cacheKey r.apiKey r.path (parseQuery r.query)),
            Effect.upstreamGet (upstreamURL r),
            Effect.storeSet (cacheKey r.apiKey r.path (parseQuery r.query))
              (serializeCached ct b) cacheExpiry]⟩
      else
        ⟨⟨s.rdb.set (cacheKey r.apiKey r.path (parseQuery r.query))
            ⟨serializeCached ct b, cacheExpiry⟩, w.now⟩,
          Reply.write ct b,
          [Effect.storeGet (cacheKey r.apiKey r.path (parseQuery r.query)),
            Effect.upstreamGet (upstreamURL r),
            Effect.storeSet (cacheKey r.apiKey r.path (parseQuery r.query))
              (serializeCached ct b) cacheExpiry]⟩ := by
  have h1 := (tryAdmit_fst s.lastReq w.since w.now).mpr hadm
  have h2 := tryAdmit_snd_of_admitted _ _ _ h1
  simp [handler, httpError, hkey, hget, hmiss, h1, h2, hup]

/-- The handler on a hit whose value parses. -/
theorem handler_hit (s : State) (r : Request) (w : World) (ct b : GoString)
    (hkey : r.apiKey ≠ []) (hget : w.getFails = false)
    (hne : s.rdb.get (cacheKey r.apiKey r.path (parseQuery r.query)) ≠ [])
    (hparse : parseCached (s.rdb.get (cacheKey r.apiKey r.path (parseQuery r.query))) =
      Parsed.ok ct b) :
    handler s r w =
      ⟨s, Reply.write ct b, [Effect.storeGet (cacheKey r.apiKey r.path (parseQuery r.query))]⟩ := by
  simp [handler, hkey, hget, hne, hparse]

/-- C7, as stated, fails on a content type of 1000 bytes: the first request
replies 200 with the content type and the body `x`; the repeat replies 200
with a content type of 100 bytes and a body of 902 bytes, the stored value
being cut after the 3 digits `100` of its 4-digit length. -/
theorem miss_then_hit_counterexample :
    (handler demoState demoRequest
        (demoWorld 5000000000
          (Upstream.response 200 (str "200 OK") longContentType (some (str "x"))))).reply =
      Reply.write longContentType (str "x") ∧
    (handler
        (handler demoState demoRequest
          (demoWorld 5000000000
            (Upstream.response 200 (str "200 OK") longContentType (some (str "x"))))).state
        demoRequest (demoWorld 5000000000 Upstream.invalid)).reply =
      Reply.write (48 :: List.replicate 99 97) (List.replicate 901 97 ++ str "x") ∧
    (handler
        (handler demoState demoRequest
          (demoWorld 5000000000
            (Upstream.response 200 (str "200 OK") longContentType (some (str "x"))))).state
        demoRequest (demoWorld 5000000000 Upstream.invalid)).reply ≠
      Reply.write longContentType (str "x") :=
  ⟨by decide!, by decide!, by decide!⟩

/-- C7, amended. For every credential, path and query and every upstream 200
response with a content type `ct` of at most 999 bytes and a body `b`: a first
request that misses, is admitted and stores successfully replies 200 with
`ct` and `b`; a repeat of the same request, whatever the clock reads and
whatever upstream would do, replies 200 with `ct` and `b`, makes no call
but the store lookup and leaves the store and `lastReq` as they were. -/
theorem miss_then_hit (s : State) (r : Request) (w1 w2 : World) (status ct b : GoString)
    (hkey : r.apiKey ≠ []) (hget : w1.getFails = false)
    (hmiss : s.rdb.get (cacheKey r.apiKey r.path (parseQuery r.query)) = [])
    (hadm : second ≤ w1.since - s.lastReq)
    (hup : w1.upstream = Upstream.response 200 status ct (some b))
    (hset : w1.setFails = false) (hct : ct.length ≤ 999) (hget2 : w2.getFails = false) :
    (handler s r w1).reply = Reply.write ct b ∧
    (handler s r w1).reply.status = some 200 ∧
    (handler (handler s r w1).state r w2).reply = Reply.write ct b ∧
    (handler (handler s r w1).state r w2).reply.status = some 200 ∧
    (handler (handler s r w1).state r w2).effects =
      [Effect.storeGet (cacheKey r.apiKey r.path (parseQuery r.query))] ∧
    (handler (handler s r w1).state r w2).effects.any Effect.isUpstream = false ∧
    (handler (handler s r w1).state r w2).state.lastReq = (handler s r w1).state.lastReq ∧
    (handler (handler s r w1).state r w2).state.rdb = (handler s r w1).state.rdb := by
  have h1 := handler_miss_ok s r w1 status ct b hkey hget hmiss hadm hup
  simp only [hset, Bool.false_eq_true, if_false] at h1
  have hval : (handler s r w1).state.rdb.get (cacheKey r.apiKey r.path (parseQuery r.query)) =
      serializeCached ct b := by
    rw [h1]; exact get_set_self _ _ _
  have h2 := handler_hit (handler s r w1).state r w2 ct b hkey hget2
    (by rw [hval]; exact serializeCached_ne_nil ct b)
    (by rw [hval]; exact parseCached_serializeCached ct b hct)
  rw [h2]
  simp [h1, Reply.status, Effect.isUpstream]

/-- C7, amended, on the request `GET /p` of the credential `k`, the content
type `application/json` and the body `ok`, the repeat arriving at the same
instant as the first request. -/
theorem miss_then_hit_witness :
    (handler
        (handler demoState demoRequest
          (demoWorld 5000000000
            (Upstream.response 200 (str "200 OK") (str "application/json")
              (some (str "ok"))))).state
        demoRequest (demoWorld 5000000000 Upstream.invalid)).reply =
      Reply.write (str "application/json") (str "ok") :=
  (miss_then_hit demoState demoRequest
    (demoWorld 5000000000
      (Upstream.response 200 (str "200 OK") (str "application/json") (some (str "ok"))))
    (demoWorld 5000000000 Upstream.invalid) (str "200 OK") (str "application/json") (str "ok")
    (by decide) rfl (by decide) (by decide!) rfl rfl (by decide) rfl).2.2.1

/-- C8. For every request that misses the cache and is admitted, if upstream
answers 200 with the content type `ct` and the body `b`: either the store
write succeeds, the store then holds `serializeCached ct b` under the cache
key with the expiry `cacheExpiry` of 7 days and the reply is 200 with `ct` and
`b`; or the store write fails and the reply is the error 500 with the fixed
text `failed to cache response`, `b` not being written.  And whenever a
request that misses is answered 200, the entry has been written. -/
theorem ok_on_miss_is_cached (s : State) (r : Request) (w : World)
    (hkey : r.apiKey ≠ []) (hget : w.getFails = false)
    (hmiss : s.rdb.get (cacheKey r.apiKey r.path (parseQuery r.query)) = []) :
    (∀ status ct b : GoString, second ≤ w.since - s.lastReq →
      w.upstream = Upstream.response 200 status ct (some b) →
      (w.setFails = false ∧
        (handler s r w).state.rdb (cacheKey r.apiKey r.path (parseQuery r.query)) =
          some ⟨serializeCached ct b, cacheExpiry⟩ ∧
        (handler s r w).reply = Reply.write ct b ∧
        (handler s r w).reply.status = some 200) ∨
      (w.setFails = true ∧
        (handler s r w).reply = Reply.error (str "failed to cache response") 500 ∧
        (handler s r w).reply.status = some 500 ∧
        ∀ ct2 : GoString, (handler s r w).reply ≠ Reply.write ct2 b)) ∧
    ((handler s r w).reply.status = some 200 →
      ∃ ct b : GoString, ∃ status : GoString,
        w.upstream = Upstream.response 200 status ct (some b) ∧
        w.setFails = false ∧
        (handler s r w).reply = Reply.write ct b ∧
        (handler s r w).state.rdb (cacheKey r.apiKey r.path (parseQuery r.query)) =
          some ⟨serializeCached ct b, cacheExpiry⟩ ∧
        Effect.storeSet (cacheKey r.apiKey r.path (parseQuery r.query))
          (serializeCached ct b) cacheExpiry ∈ (handler s r w).effects) ∧
    cacheExpiry = 7 * 24 * 3600 * 1000000000 := by
  refine ⟨?_, ?_, by decide⟩
  · intro status ct b hadm hup
    have h := handler_miss_ok s r w status ct b hkey hget hmiss hadm hup
    cases hs : w.setFails
    · left
      simp only [hs, Bool.false_eq_true, if_false] at h
      simp [h, Store.set, Reply.status]
    · right
      simp only [hs, if_true] at h
      simp [h, Reply.status]
  · intro h200
    cases hadm : (tryAdmit s.lastReq w.since w.now).1
    · simp [handler, httpError, hkey, hget, hmiss, hadm, Reply.status] at h200
    · have hadm2 := (tryAdmit_fst _ _ _).mp hadm
      cases hup : w.upstream with
      | invalid => simp [handler, httpError, hkey, hget, hmiss, hadm, hup, Reply.status] at h200
      | failed msg => simp [handler, httpError, hkey, hget, hmiss, hadm, hup, Reply.status] at h200
      | response code status ct body =>
        by_cases hc : code = 200
        · subst hc
          cases body with
          | none => simp [handler, httpError, hkey, hget, hmiss, hadm, hup, Reply.status] at h200
          | some b =>
            have h := handler_miss_ok s r w status ct b hkey hget hmiss hadm2 hup
            cases hs : w.setFails
            · simp only [hs, Bool.false_eq_true, if_false] at h
              exact ⟨ct, b, status, rfl, rfl, by simp [h], by simp [h, Store.set], by simp [h]⟩
            · simp only [hs, if_true] at h
              simp [h, Reply.status] at h200
        · rw [handler_miss_non_ok s r w code status ct body hkey hget hmiss hadm2 hup hc] at h200
          by_cases hv : code < 100 ∨ 999 < code
          · simp [httpError, hv, Reply.status] at h200
          · simp [httpError, hv, Reply.status] at h200
            exact absurd h200 hc

/-- C8 on the request `GET /p` of the credential `k`, the store write
succeeding. -/
theorem ok_on_miss_is_cached_witness :
    (handler demoState demoRequest
        (demoWorld 5000000000
          (Upstream.response 200 (str "200 OK") (str "application/json")
            (some (str "ok"))))).reply.status = some 200 ∧
    ∃ ct b : GoString, ∃ status : GoString,
      (demoWorld 5000000000
          (Upstream.response 200 (str "200 OK") (str "application/json")
            (some (str "ok")))).upstream = Upstream.response 200 status ct (some b) ∧
      (demoWorld 5000000000
          (Upstream.response 200 (str "200 OK") (str "application/json")
            (some (str "ok")))).setFails = false ∧
      (handler demoState demoRequest
          (demoWorld 5000000000
            (Upstream.response 200 (str "200 OK") (str "application/json")
              (some (str "ok"))))).reply = Reply.write ct b ∧
      (handler demoState demoRequest
          (demoWorld 5000000000
            (Upstream.response 200 (str "200 OK") (str "application/json")
              (some (str "ok"))))).state.rdb
          (cacheKey demoRequest.apiKey demoRequest.path (parseQuery demoRequest.query)) =
        some ⟨serializeCached ct b, cacheExpiry⟩ ∧
      Effect.storeSet (cacheKey demoRequest.apiKey demoRequest.path (parseQuery demoRequest.query))
          (serializeCached ct b) cacheExpiry ∈
        (handler demoState demoRequest
          (demoWorld 5000000000
            (Upstream.response 200 (str "200 OK") (str "application/json")
              (some (str "ok"))))).effects :=
  ⟨by decide!,
    (ok_on_miss_is_cached demoState demoRequest
      (demoWorld 5000000000
        (Upstream.response 200 (str "200 OK") (str "application/json") (some (str "ok"))))
      (by decide) rfl (by decide)).2.1 (by decide!)⟩

/-- C9, as stated, fails.  When upstream answers `099 Weird`, the call
`http.Error(w, "099 Weird", 99)` panics in `WriteHeader`: the handler sends no
reply, with status 99 or any other.  When upstream answers `204 No Content`,
the reply has the status 204 and no body, not the status text. -/
theorem non_ok_counterexample :
    (handler demoState demoRequest
        (demoWorld 5000000000
          (Upstream.response 99 (str "099 Weird") (str "text/html") (some [])))).reply =
      Reply.panic ∧
    (handler demoState demoRequest
        (demoWorld 5000000000
          (Upstream.response 99 (str "099 Weird") (str "text/html") (some [])))).reply.status =
      none ∧
    (handler demoState demoRequest
        (demoWorld 5000000000
          (Upstream.response 99 (str "099 Weird") (str "text/html") (some [])))).reply ≠
      Reply.error (str "099 Weird") 99 ∧
    (handler demoState demoRequest
        (demoWorld 5000000000
          (Upstream.response 204 (str "204 No Content") [] (some [])))).reply.body =
      some [] ∧
    (handler demoState demoRequest
        (demoWorld 5000000000
          (Upstream.response 204 (str "204 No Content") [] (some [])))).reply.body ≠
      some (str "204 No Content") :=
  ⟨by decide!, by decide!, by decide!, by decide!, by decide!⟩

/-- C9, amended. For every request that misses the cache and is admitted, if
upstream answers with a status code other than 200: the calls made are the
store lookup and the upstream request, none of them a store write, and the
store is unchanged.  When the code is from 100 to 999 the reply is
`http.Error` with the upstream status text and status code: it has that
status, its body is the status text and a newline when the status allows a
body, and it has no body when the status is 204 or 304. -/
theorem non_ok_passes_through (s : State) (r : Request) (w : World) (code : Int)
    (status ct : GoString) (body : Option GoString)
    (hkey : r.apiKey ≠ []) (hget : w.getFails = false)
    (hmiss : s.rdb.get (cacheKey r.apiKey r.path (parseQuery r.query)) = [])
    (hadm : second ≤ w.since - s.lastReq)
    (hup : w.upstream = Upstream.response code status ct body) (hcode : code ≠ 200) :
    (handler s r w).effects =
      [Effect.storeGet (cacheKey r.apiKey r.path (parseQuery r.query)),
        Effect.upstreamGet (upstreamURL r)] ∧
    (handler s r w).effects.any Effect.isWrite = false ∧
    (handler s r w).state.rdb = s.rdb ∧
    (100 ≤ code ∧ code ≤ 999 →
      (handler s r w).reply = Reply.error status code ∧
      (handler s r w).reply.status = some code ∧
      (bodyAllowedForStatus code = true →
        (handler s r w).reply.body = some (status ++ [10])) ∧
      (code = 204 ∨ code = 304 → (handler s r w).reply.body = some [])) := by
  rw [handler_miss_non_ok s r w code status ct body hkey hget hmiss hadm hup hcode]
  refine ⟨rfl, by simp [Effect.isWrite], rfl, ?_⟩
  intro hv
  rw [httpError_of_valid status code hv.1 hv.2]
  refine ⟨rfl, rfl, ?_, ?_⟩
  · intro hb
    simp [Reply.body, hb]
  · intro h
    rcases h with h | h <;> subst h <;> rfl

/-- C9, amended, on the request `GET /p` of the credential `k` when upstream
answers `404 Not Found`. -/
theorem non_ok_passes_through_witness :
    (handler demoState demoRequest
        (demoWorld 5000000000
          (Upstream.response 404 (str "404 Not Found") (str "text/html")
            (some (str "gone"))))).reply = Reply.error (str "404 Not Found") 404 ∧
    (handler demoState demoRequest
        (demoWorld 5000000000
          (Upstream.response 404 (str "404 Not Found") (str "text/html")
            (some (str "gone"))))).reply.body = some (str "404 Not Found\n") ∧
    (handler demoState demoRequest
        (demoWorld 5000000000
          (Upstream.response 404 (str "404 Not Found") (str "text/html")
            (some (str "gone"))))).effects =
      [Effect.storeGet (cacheKey demoRequest.apiKey demoRequest.path
          (parseQuery demoRequest.query)),
        Effect.upstreamGet (str "https://www.flickr.com/p?api_key=k")] :=
  ⟨((non_ok_passes_through demoState demoRequest
      (demoWorld 5000000000
        (Upstream.response 404 (str "404 Not Found") (str "text/html") (some (str "gone"))))
      404 (str "404 Not Found") (str "text/html") (some (str "gone"))
      (by decide) rfl (by decide) (by decide!) rfl (by decide)).2.2.2
        ⟨by decide, by decide⟩).1,
    by decide!, by decide!⟩

/-- C10. For every request with a non-empty credential whose cache lookup
finds nothing or an empty value and whose clock reading is less than a second
after `lastReq`, whatever its cache key: the reply is the error 429, the only
call made is the store lookup (no upstream request, no store write), and the
store and `lastReq` are unchanged. -/
theorem too_fast_is_rejected (s : State) (r : Request) (w : World)
    (hkey : r.apiKey ≠ []) (hget : w.getFails = false)
    (hmiss : s.rdb (cacheKey r.apiKey r.path (parseQuery r.query)) = none ∨
      ∃ e : Entry, s.rdb (cacheKey r.apiKey r.path (parseQuery r.query)) = some e ∧
        e.value = [])
    (hfast : w.since - s.lastReq < second) :
    (handler s r w).reply = Reply.error (str "too fast") 429 ∧
    (handler s r w).reply.status = some 429 ∧
    (handler s r w).effects =
      [Effect.storeGet (cacheKey r.apiKey r.path (parseQuery r.query))] ∧
    (handler s r w).effects.any Effect.isUpstream = false ∧
    (handler s r w).effects.any Effect.isWrite = false ∧
    (handler s r w).state.lastReq = s.lastReq ∧
    (handler s r w).state.rdb = s.rdb := by
  have hm : s.rdb.get (cacheKey r.apiKey r.path (parseQuery r.query)) = [] := by
    rcases hmiss with h | ⟨e, h, he⟩
    · simp [Store.get, h]
    · simp [Store.get, h, he]
  have h1 : (tryAdmit s.lastReq w.since w.now).1 = false := by
    cases h : (tryAdmit s.lastReq w.since w.now).1
    · rfl
    · have := (tryAdmit_fst _ _ _).mp h
      omega
  simp [handler, httpError, hkey, hget, hm, h1, Reply.status, Effect.isUpstream, Effect.isWrite]

/-- C10 on two misses for different keys within the same second: after the
request `GET /p` was dispatched at 5 s, the request `GET /q` at 5.4 s is
rejected. -/
theorem too_fast_is_rejected_witness :
    (handler
        (handler demoState demoRequest
          (demoWorld 5000000000
            (Upstream.response 404 (str "404 Not Found") (str "text/html") none))).state
        ⟨str "k", str "/q", []⟩
        (demoWorld 5400000000
          (Upstream.response 200 (str "200 OK") (str "text/plain")
            (some (str "never fetched"))))).reply = Reply.error (str "too fast") 429 :=
  (too_fast_is_rejected
    (handler demoState demoRequest
      (demoWorld 5000000000
        (Upstream.response 404 (str "404 Not Found") (str "text/html") none))).state
    ⟨str "k", str "/q", []⟩
    (demoWorld 5400000000
      (Upstream.response 200 (str "200 OK") (str "text/plain") (some (str "never fetched"))))
    (by decide) rfl (Or.inl (by decide!)) (by decide!)).1

end FlickrProxy
